import Mathlib

/-!
Verification development for the ZPL label-template engine
(`src/components/preview.tsx`): field extraction, content normalization,
round-trip regeneration, export cleanup and image-definition lookup.

Text is modelled as `List Char`.  The JavaScript regular-expression passes
(all of them global, left-to-right, non-overlapping, with lazy `.*?`
quantifiers whose continuations are literal tokens) are embedded as
deterministic scanners: at every position the scanner tries the pattern;
on success it emits the replacement and resumes after the match, otherwise
it emits the character and moves one position forward, exactly the
semantics of `String.prototype.replace` with a `g`-flagged regex of this
shape.  The scanners take a fuel argument (instantiated with the length of
the scanned string, which successful steps always drop below since every
match consumes at least one character) so that all definitions are
structural and evaluate inside the kernel.
-/

def s2l (s : String) : List Char := s.data

/-- Match a literal token at the head of the input, returning the rest. -/
def stripTok (pat l : List Char) : Option (List Char) :=
  match pat, l with
  | [], l => some l
  | _, [] => none
  | a :: p, b :: l => if a = b then stripTok p l else none

/-- Does the input start with the given literal token? -/
def startsTok (pat l : List Char) : Bool := (stripTok pat l).isSome

/-- JavaScript `String.prototype.includes`: substring containment. -/
def hasSub (pat : List Char) : List Char → Bool
  | [] => pat.isEmpty
  | l@(_ :: cs) => startsTok pat l || hasSub pat cs

/-- Semantics of the lazy capture `(.*?)(?=,)`: the characters before the
first comma, with the rest of the input beginning at that comma (the
lookahead does not consume it).  `none` when no comma occurs. -/
def splitAtComma : List Char → Option (List Char × List Char)
  | [] => none
  | c :: cs =>
    if c = ',' then some ([], c :: cs)
    else
      match splitAtComma cs with
      | some (a, b) => some (c :: a, b)
      | none => none

/-- Semantics of a lazy capture `(.*?)tok`: the characters before the first
occurrence of the literal token, with the rest of the input after the
token.  `none` when the token does not occur. -/
def splitAtTok (tok : List Char) : List Char → Option (List Char × List Char)
  | [] => none
  | c :: cs =>
    match stripTok tok (c :: cs) with
    | some rest => some ([], rest)
    | none =>
      match splitAtTok tok cs with
      | some (a, b) => some (c :: a, b)
      | none => none

/-- Greedy `\d+` immediately followed by a non-digit: the maximal digit run,
required nonempty. -/
def digits1 (l : List Char) : Option (List Char × List Char) :=
  match l.takeWhile Char.isDigit with
  | [] => none
  | d => some (d, l.dropWhile Char.isDigit)

/-- A single `[A-Z]` character class match. -/
def upperAZ : List Char → Option (Char × List Char)
  | [] => none
  | c :: cs => if 'A' ≤ c ∧ c ≤ 'Z' then some (c, cs) else none

/-- A single literal comma. -/
def commaTok : List Char → Option (List Char)
  | [] => none
  | c :: cs => if c = ',' then some cs else none

/-- Fueled global replace: at each position try `step`; on a match emit its
output and continue after the match, otherwise keep the character. -/
def scanF (step : List Char → Option (List Char × List Char)) :
    Nat → List Char → List Char
  | 0, l => l
  | _ + 1, [] => []
  | n + 1, c :: cs =>
    match step (c :: cs) with
    | some (out, rest) => out ++ scanF step n rest
    | none => c :: scanF step n cs

def scanAll (step : List Char → Option (List Char × List Char))
    (l : List Char) : List Char :=
  scanF step l.length l

/-- Fueled global match collection (`String.prototype.matchAll`). -/
def scanCollectF {κ : Type} (step : List Char → Option (κ × List Char)) :
    Nat → List Char → List κ
  | 0, _ => []
  | _ + 1, [] => []
  | n + 1, c :: cs =>
    match step (c :: cs) with
    | some (k, rest) => k :: scanCollectF step n rest
    | none => scanCollectF step n cs

def scanCollectAll {κ : Type} (step : List Char → Option (κ × List Char))
    (l : List Char) : List κ :=
  scanCollectF step l.length l

/-- Global replacement of a literal token (`String.replace` with a
`g`-flagged literal pattern). -/
def replaceAllTok (tok rep : List Char) (l : List Char) : List Char :=
  scanAll (fun s =>
    match stripTok tok s with
    | some rest => some (rep, rest)
    | none => none) l

/-- Replacement of the first occurrence of a literal token
(`String.replace` with a non-global pattern); identity when absent. -/
def replaceFirstTok (tok rep : List Char) (l : List Char) : List Char :=
  match splitAtTok tok l with
  | some (a, b) => a ++ rep ++ b
  | none => l

-- ===========================================================================
-- Data model (`interface Variable`)
-- ===========================================================================

inductive VarType where
  | image
  | barcode
  | text
deriving DecidableEq, Repr

/-- One editable unit discovered in a template.  `id` models
`generateUniqueId()` (an opaque session-unique identifier) as the discovery
ordinal, which preserves exactly the properties the code relies on:
uniqueness and discovery order. -/
structure Variable where
  id : Nat
  originalValue : List Char
  value : List Char
  index : Nat
  x : Nat
  y : Nat
  type : VarType
  isChecked : Bool
  imageName : Option (List Char)
deriving DecidableEq, Repr

def imageVarsOf (vars : List Variable) : List Variable :=
  vars.filter (fun v => v.type = VarType.image)

def barcodeVarsOf (vars : List Variable) : List Variable :=
  vars.filter (fun v => v.type = VarType.barcode)

def textVarsOf (vars : List Variable) : List Variable :=
  vars.filter (fun v => v.type = VarType.text)

/-- JavaScript `new Map(entries).get(k)`: with duplicate keys the last
entry wins. -/
def mapGet (vs : List Variable) (k : List Char) : Option Variable :=
  (vs.filter (fun v => v.originalValue = k)).getLast?

-- ===========================================================================
-- Encoding remap (`cp850Map`, `convertToCP850`)
-- ===========================================================================

/-- The fixed accented-character → escape-code table, with the exact
two-character keys of the source file (in source insertion order). -/
def cp850Map : List (List Char × List Char) :=
  [ ([Char.ofNat 0x221A, Char.ofNat 0xB0],   s2l "_a0")
  , ([Char.ofNat 0x221A, Char.ofNat 0xA9],   s2l "_82")
  , ([Char.ofNat 0x221A, Char.ofNat 0x2260], s2l "_a1")
  , ([Char.ofNat 0x221A, Char.ofNat 0x2265], s2l "_a2")
  , ([Char.ofNat 0x221A, Char.ofNat 0x222B], s2l "_a3")
  , ([Char.ofNat 0x221A, Char.ofNat 0xA2],   s2l "_83")
  , ([Char.ofNat 0x221A, Char.ofNat 0x2122], s2l "_88")
  , ([Char.ofNat 0x221A, Char.ofNat 0xA5],   s2l "_93")
  , ([Char.ofNat 0x221A, Char.ofNat 0xA3],   s2l "_c6")
  , ([Char.ofNat 0x221A, Char.ofNat 0xB5],   s2l "_e4")
  , ([Char.ofNat 0x221A, Char.ofNat 0xDF],   s2l "_87")
  , ([Char.ofNat 0x221A, Char.ofNat 0x2020], s2l "_85")
  , ([Char.ofNat 0x221A, Char.ofNat 0xAE],   s2l "_8a")
  , ([Char.ofNat 0x221A, Char.ofNat 0xA8],   s2l "_8d")
  , ([Char.ofNat 0x221A, Char.ofNat 0x2264], s2l "_95")
  , ([Char.ofNat 0x221A, Char.ofNat 0x3C0],  s2l "_97")
  , ([Char.ofNat 0x221A, Char.ofNat 0xC5],   s2l "_b5")
  , ([Char.ofNat 0x221A, Char.ofNat 0xE2],   s2l "_90")
  , ([Char.ofNat 0x221A, Char.ofNat 0xE7],   s2l "_d6")
  , ([Char.ofNat 0x221A, Char.ofNat 0xEC],   s2l "_e0")
  , ([Char.ofNat 0x221A, Char.ofNat 0xF6],   s2l "_e9")
  , ([Char.ofNat 0x221A, Char.ofNat 0xC7],   s2l "_b6")
  , ([Char.ofNat 0x221A, Char.ofNat 0xE4],   s2l "_d2")
  , ([Char.ofNat 0x221A, Char.ofNat 0xEE],   s2l "_e2")
  , ([Char.ofNat 0x221A, Char.ofNat 0xC9],   s2l "_c7")
  , ([Char.ofNat 0x221A, Char.ofNat 0xEF],   s2l "_e5")
  , ([Char.ofNat 0x221A, Char.ofNat 0xE1],   s2l "_80")
  , ([Char.ofNat 0x221A, Char.ofNat 0xC4],   s2l "_b7")
  , ([Char.ofNat 0x221A, Char.ofNat 0xE0],   s2l "_d4")
  , ([Char.ofNat 0x221A, Char.ofNat 0xE5],   s2l "_de")
  , ([Char.ofNat 0x221A, Char.ofNat 0xED],   s2l "_e3")
  , ([Char.ofNat 0x221A, Char.ofNat 0xF4],   s2l "_eb")
  , ([Char.ofNat 0xAC,   Char.ofNat 0x221E], s2l "_f8") ]

/-- Sequentially replace every occurrence of each mapped character sequence
by its escape code. -/
def convertToCP850 (text : List Char) : List Char :=
  cp850Map.foldl (fun acc kv => replaceAllTok kv.1 kv.2 acc) text

-- ===========================================================================
-- Regenerator (`generateZplWithCurrentValues`)
-- ===========================================================================

/-- Matching core of the image pass pattern `\^XG(.*?)(?=,)`: the captured
group name and the rest of the input (starting at the unconsumed comma). -/
def imgParse (l : List Char) : Option (List Char × List Char) :=
  match stripTok (s2l "^XG") l with
  | none => none
  | some afterXG => splitAtComma afterXG

/-- One step of the image pass `result.replace(/\^XG(.*?)(?=,)/gs, ...)`:
replace the captured group name with the matching image field's current
value when the lookup succeeds and the value is nonempty, else keep the
match unchanged. -/
def imageStep (vars : List Variable) (l : List Char) :
    Option (List Char × List Char) :=
  match imgParse l with
  | none => none
  | some (cap, rest) =>
    match mapGet (imageVarsOf vars) cap with
    | some v => if v.value = [] then some (s2l "^XG" ++ cap, rest)
                else some (s2l "^XG" ++ v.value, rest)
    | none => some (s2l "^XG" ++ cap, rest)

/-- A parsed match of the barcode statement pattern
`(\^FT\d+,\d+\^BE[A-Z],\d+,[A-Z],[A-Z])(?:\^FH)?\^FD(.*?)\^FS`. -/
structure BcMatch where
  d1 : List Char
  d2 : List Char
  a : Char
  d3 : List Char
  b : Char
  cc : Char
  hadFH : Bool
  fd : List Char
  rest : List Char
deriving DecidableEq, Repr

/-- Capture group 1 of the barcode pattern (the statement prefix). -/
def bcPfx (m : BcMatch) : List Char :=
  s2l "^FT" ++ m.d1 ++ [','] ++ m.d2 ++ s2l "^BE" ++ [m.a] ++ [','] ++
    m.d3 ++ [','] ++ [m.b] ++ [','] ++ [m.cc]

/-- The full slice of input consumed by a barcode match. -/
def bcSlice (m : BcMatch) : List Char :=
  bcPfx m ++ (if m.hadFH then s2l "^FH" else []) ++ s2l "^FD" ++ m.fd ++
    s2l "^FS"

/-- Matching core of the barcode pass pattern. -/
def bcParse (l : List Char) : Option BcMatch :=
  match stripTok (s2l "^FT") l with
  | none => none
  | some r1 =>
  match digits1 r1 with
  | none => none
  | some (d1, r2) =>
  match commaTok r2 with
  | none => none
  | some r3 =>
  match digits1 r3 with
  | none => none
  | some (d2, r4) =>
  match stripTok (s2l "^BE") r4 with
  | none => none
  | some r5 =>
  match upperAZ r5 with
  | none => none
  | some (a, r6) =>
  match commaTok r6 with
  | none => none
  | some r7 =>
  match digits1 r7 with
  | none => none
  | some (d3, r8) =>
  match commaTok r8 with
  | none => none
  | some r9 =>
  match upperAZ r9 with
  | none => none
  | some (b, r10) =>
  match commaTok r10 with
  | none => none
  | some r11 =>
  match upperAZ r11 with
  | none => none
  | some (cc, r12) =>
  match stripTok (s2l "^FH") r12 with
  | some r13 =>
    (match stripTok (s2l "^FD") r13 with
     | none => none
     | some r14 =>
       match splitAtTok (s2l "^FS") r14 with
       | none => none
       | some (fd, rest) =>
         some { d1 := d1, d2 := d2, a := a, d3 := d3, b := b, cc := cc,
                hadFH := true, fd := fd, rest := rest })
  | none =>
    match stripTok (s2l "^FD") r12 with
    | none => none
    | some r14 =>
      match splitAtTok (s2l "^FS") r14 with
      | none => none
      | some (fd, rest) =>
        some { d1 := d1, d2 := d2, a := a, d3 := d3, b := b, cc := cc,
               hadFH := false, fd := fd, rest := rest }

/-- One step of the barcode pass
`/(\^FT\d+,\d+\^BE[A-Z],\d+,[A-Z],[A-Z])(?:\^FH)?\^FD(.*?)\^FS/gs`:
the replacement always reads `prefix^FH^FD content ^FS`, with the content
remapped through `convertToCP850` when the payload matches a barcode field
and the raw payload otherwise. -/
def barcodeStep (vars : List Variable) (l : List Char) :
    Option (List Char × List Char) :=
  match bcParse l with
  | none => none
  | some m =>
    let content := match mapGet (barcodeVarsOf vars) m.fd with
                   | some v => convertToCP850 v.value
                   | none => m.fd
    some (bcPfx m ++ s2l "^FH^FD" ++ content ++ s2l "^FS", m.rest)

/-- One step of the barcode-position collection
`/\^FT(\d+),(\d+)\^BE[A-Z].*?\^FD.*?\^FS/gs`, yielding the raw
`x,y` key exactly as the source interpolates it. -/
def collectStep (l : List Char) : Option (List Char × List Char) :=
  match stripTok (s2l "^FT") l with
  | none => none
  | some r1 =>
  match digits1 r1 with
  | none => none
  | some (d1, r2) =>
  match commaTok r2 with
  | none => none
  | some r3 =>
  match digits1 r3 with
  | none => none
  | some (d2, r4) =>
  match stripTok (s2l "^BE") r4 with
  | none => none
  | some r5 =>
  match upperAZ r5 with
  | none => none
  | some (_, r6) =>
  match splitAtTok (s2l "^FD") r6 with
  | none => none
  | some (_, r7) =>
  match splitAtTok (s2l "^FS") r7 with
  | none => none
  | some (_, rest) => some (d1 ++ [','] ++ d2, rest)

/-- A parsed match of the text statement pattern
`\^FT(\d+),(\d+)(.*?)(\^FD)(.*?)(\^FS)`. -/
structure TxtMatch where
  d1 : List Char
  d2 : List Char
  middle : List Char
  fd : List Char
  rest : List Char
deriving DecidableEq, Repr

/-- The raw `x,y` key interpolated by the source for a text match. -/
def txtKey (m : TxtMatch) : List Char := m.d1 ++ [','] ++ m.d2

/-- The full slice of input consumed by a text match. -/
def txtSlice (m : TxtMatch) : List Char :=
  s2l "^FT" ++ m.d1 ++ [','] ++ m.d2 ++ m.middle ++ s2l "^FD" ++ m.fd ++
    s2l "^FS"

/-- Matching core of the text pass pattern. -/
def txtParse (l : List Char) : Option TxtMatch :=
  match stripTok (s2l "^FT") l with
  | none => none
  | some r1 =>
  match digits1 r1 with
  | none => none
  | some (d1, r2) =>
  match commaTok r2 with
  | none => none
  | some r3 =>
  match digits1 r3 with
  | none => none
  | some (d2, r4) =>
  match splitAtTok (s2l "^FD") r4 with
  | none => none
  | some (middle, r5) =>
  match splitAtTok (s2l "^FS") r5 with
  | none => none
  | some (fd, rest) =>
    some { d1 := d1, d2 := d2, middle := middle, fd := fd, rest := rest }

/-- One step of the text pass `/\^FT(\d+),(\d+)(.*?)(\^FD)(.*?)(\^FS)/gs`:
matches at barcode positions are kept unchanged; otherwise the payload is
replaced by the matching text field's remapped current value (or kept raw)
and the statement is normalized to carry `^FH`. -/
def textStep (vars : List Variable) (pos : List (List Char)) (l : List Char) :
    Option (List Char × List Char) :=
  match txtParse l with
  | none => none
  | some m =>
    if pos.contains (txtKey m) then
      some (txtSlice m, m.rest)
    else
      let content := match mapGet (textVarsOf vars) m.fd with
                     | some v => convertToCP850 v.value
                     | none => m.fd
      let mid2 := if hasSub (s2l "^FH") m.middle then m.middle
                  else m.middle ++ s2l "^FH"
      some (s2l "^FT" ++ m.d1 ++ [','] ++ m.d2 ++ mid2 ++ s2l "^FD" ++
            content ++ s2l "^FS", m.rest)

/-- The regenerator: empty result when no document is loaded or no fields
exist, else the image, barcode and text replacement passes in order, the
barcode-position set being collected from the text after the barcode
pass. -/
def generateZplWithCurrentValues (originalContent : List Char)
    (vars : List Variable) : List Char :=
  if originalContent = [] ∨ vars = [] then []
  else
    let r1 := scanAll (imageStep vars) originalContent
    let r2 := scanAll (barcodeStep vars) r1
    let pos := scanCollectAll collectStep r2
    scanAll (textStep vars pos) r2

-- ===========================================================================
-- Field extractor (`extractVariables`)
-- ===========================================================================

/-- `parseInt(d, 10)` on a nonempty digit string. -/
def digitsToNat (l : List Char) : Nat :=
  l.foldl (fun a c => a * 10 + (c.toNat - 48)) 0

def isUpperDigit (c : Char) : Bool := ('A' ≤ c && c ≤ 'Z') || c.isDigit

/-- The greedy `\^XG([A-Z0-9]+),` token: opener, a nonempty maximal run of
uppercase letters and digits, then a comma. -/
def xgNameTok (l : List Char) : Option (List Char × List Char) :=
  match stripTok (s2l "^XG") l with
  | none => none
  | some r =>
    match r.takeWhile isUpperDigit with
    | [] => none
    | nm =>
      match commaTok (r.dropWhile isUpperDigit) with
      | none => none
      | some rest => some (nm, rest)

/-- Semantics of the lazy `.*?` before the group-assignment token: the
first position at which the token matches. -/
def findXG : List Char → Option (List Char × List Char)
  | [] => none
  | c :: cs =>
    match xgNameTok (c :: cs) with
    | some (nm, rest) => some (nm, rest)
    | none => findXG cs

/-- One match of `/(\^FO(\d+),(\d+).*?)(\^XG([A-Z0-9]+),)/gs` turned into
an image field (`id` and `index` are assigned afterwards). -/
def imgExtractStep (l : List Char) : Option (Variable × List Char) :=
  match stripTok (s2l "^FO") l with
  | none => none
  | some r1 =>
  match digits1 r1 with
  | none => none
  | some (d1, r2) =>
  match commaTok r2 with
  | none => none
  | some r3 =>
  match digits1 r3 with
  | none => none
  | some (d2, r4) =>
  match findXG r4 with
  | none => none
  | some (nm, rest) =>
    some ({ id := 0, originalValue := nm, value := nm, index := 0,
            x := digitsToNat d1, y := digitsToNat d2, type := VarType.image,
            isChecked := false, imageName := some nm }, rest)

/-- One match of
`/\^FT(\d+),(\d+)\^BE[A-Z],(\d+),[A-Z],[A-Z]\^FD(.*?)\^FS/gs` turned into a
barcode field.  The source leaves `isChecked` undefined (falsy), modelled
as `false`. -/
def bcExtractStep (l : List Char) : Option (Variable × List Char) :=
  match stripTok (s2l "^FT") l with
  | none => none
  | some r1 =>
  match digits1 r1 with
  | none => none
  | some (d1, r2) =>
  match commaTok r2 with
  | none => none
  | some r3 =>
  match digits1 r3 with
  | none => none
  | some (d2, r4) =>
  match stripTok (s2l "^BE") r4 with
  | none => none
  | some r5 =>
  match upperAZ r5 with
  | none => none
  | some (_, r6) =>
  match commaTok r6 with
  | none => none
  | some r7 =>
  match digits1 r7 with
  | none => none
  | some (_, r8) =>
  match commaTok r8 with
  | none => none
  | some r9 =>
  match upperAZ r9 with
  | none => none
  | some (_, r10) =>
  match commaTok r10 with
  | none => none
  | some r11 =>
  match upperAZ r11 with
  | none => none
  | some (_, r12) =>
  match stripTok (s2l "^FD") r12 with
  | none => none
  | some r13 =>
  match splitAtTok (s2l "^FS") r13 with
  | none => none
  | some (fd, rest) =>
    some ({ id := 0, originalValue := fd, value := fd, index := 0,
            x := digitsToNat d1, y := digitsToNat d2, type := VarType.barcode,
            isChecked := false, imageName := none }, rest)

/-- One match of `/\^FT(\d+),(\d+).*?\^FD(.*?)\^FS/gs` turned into a text
field candidate. -/
def fdExtractStep (l : List Char) : Option (Variable × List Char) :=
  match stripTok (s2l "^FT") l with
  | none => none
  | some r1 =>
  match digits1 r1 with
  | none => none
  | some (d1, r2) =>
  match commaTok r2 with
  | none => none
  | some r3 =>
  match digits1 r3 with
  | none => none
  | some (d2, r4) =>
  match splitAtTok (s2l "^FD") r4 with
  | none => none
  | some (_, r5) =>
  match splitAtTok (s2l "^FS") r5 with
  | none => none
  | some (fd, rest) =>
    some ({ id := 0, originalValue := fd, value := fd, index := 0,
            x := digitsToNat d1, y := digitsToNat d2, type := VarType.text,
            isChecked := false, imageName := none }, rest)

/-- The image matches of the document, in match order. -/
def imgFieldsOf (content : List Char) : List Variable :=
  scanCollectAll imgExtractStep content

/-- The barcode matches of the document, in match order. -/
def bcFieldsOf (content : List Char) : List Variable :=
  scanCollectAll bcExtractStep content

/-- The positions claimed by barcode matches (`barcodePositions`), as
parsed coordinate pairs exactly as the source's `"x,y"` keys identify
them. -/
def barcodePositions (content : List Char) : List (Nat × Nat) :=
  (bcFieldsOf content).map (fun v => (v.x, v.y))

/-- The text matches of the document, skipping barcode-claimed
positions. -/
def txtFieldsOf (content : List Char) : List Variable :=
  (scanCollectAll fdExtractStep content).filter
    (fun v => !((barcodePositions content).contains (v.x, v.y)))

/-- The source comparator `sortByPosition` as the strict
"a sorts before b" test: y primary, x secondary. -/
def posLt (a b : Variable) : Bool :=
  a.y < b.y || (a.y == b.y && a.x < b.x)

/-- Stable insertion used to model `Array.prototype.sort` (stable per the
ECMAScript specification) with the `sortByPosition` comparator: a new
element is placed after every element it does not strictly precede. -/
def insertPos (v : Variable) : List Variable → List Variable
  | [] => [v]
  | w :: t => if posLt v w then v :: w :: t else w :: insertPos v t

def sortByPosition (l : List Variable) : List Variable :=
  l.foldl (fun acc v => insertPos v acc) []

/-- Discovery-order identifiers: models `generateUniqueId()` plus the
running `globalIndex` assigned at push time. -/
def assignIds : Nat → List Variable → List Variable
  | _, [] => []
  | n, v :: t => { v with id := n, index := n } :: assignIds (n + 1) t

/-- `sorted.forEach((v, i) => v.index = i)`. -/
def reindex : Nat → List Variable → List Variable
  | _, [] => []
  | n, v :: t => { v with index := n } :: reindex (n + 1) t

/-- The raw field list: the three match collections in discovery order,
with the discovery identifiers and running index assigned at push time. -/
def rawFieldsOf (content : List Char) : List Variable :=
  assignIds 0 (imgFieldsOf content ++ bcFieldsOf content ++ txtFieldsOf content)

/-- The extractor: image, barcode and text matches over the whole text,
text candidates at barcode-claimed positions skipped, then the
barcode/image/text groups each stably sorted by (y, x) and reindexed. -/
def extractVariables (content : List Char) : List Variable :=
  reindex 0
    (sortByPosition ((rawFieldsOf content).filter
        (fun v => v.type = VarType.barcode)) ++
     sortByPosition ((rawFieldsOf content).filter
        (fun v => v.type = VarType.image)) ++
     sortByPosition ((rawFieldsOf content).filter
        (fun v => v.type = VarType.text)))

-- ===========================================================================
-- Content normalizer (`reorderPrnContent`)
-- ===========================================================================

/-- `content.split('\n')` (keeps empty pieces). -/
def splitNl : List Char → List (List Char)
  | [] => [[]]
  | c :: cs =>
    if c = '\n' then [] :: splitNl cs
    else
      match splitNl cs with
      | a :: rest => (c :: a) :: rest
      | [] => [[c]]

def joinNl (ls : List (List Char)) : List Char := List.intercalate ['\n'] ls

def hasMNY (l : List Char) : Bool := hasSub (s2l "^MNY") l

def hasXG (l : List Char) : Bool := hasSub (s2l "^XG") l

/-- `lines.filter((line, idx) => idx <= mnyIndex || !line.includes('^XG'))`. -/
def otherKeep (k : Nat) : Nat → List (List Char) → List (List Char)
  | _, [] => []
  | i, l :: t =>
    if i ≤ k || !hasXG l then l :: otherKeep k (i + 1) t
    else otherKeep k (i + 1) t

/-- The normalizer: when a `^MNY` marker line exists, every `^XG` line of
the document is gathered (in order) and the gathered block is inserted
immediately after the marker line, the kept lines being those at or before
the marker plus the non-`^XG` lines after it. -/
def reorderPrnContent (content : List Char) : List Char :=
  let lines := splitNl content
  match lines.findIdx? hasMNY with
  | none => content
  | some k =>
    let xgLines := lines.filter hasXG
    let otherLines := otherKeep k 0 lines
    joinNl (otherLines.take (k + 1) ++ xgLines ++ otherLines.drop (k + 1))

-- ===========================================================================
-- Image definition store lookup (`getImageDefinitionByName`)
-- ===========================================================================

/-- Case-insensitive character comparison (the regex `i` flag; ASCII
folding). -/
def ciEq (a b : Char) : Bool := a.toLower = b.toLower

/-- Case-insensitively match a literal at the head of the input, returning
the consumed original characters and the rest.  The source escapes regex
metacharacters in the name, so the name is matched as a literal. -/
def ciStrip (pat l : List Char) : Option (List Char × List Char) :=
  match pat, l with
  | [], l => some ([], l)
  | _, [] => none
  | a :: p, b :: t =>
    if ciEq a b then
      match ciStrip p t with
      | some (m, r) => some (b :: m, r)
      | none => none
    else none

/-- Case-insensitive "starts with". -/
def ciStarts (pat l : List Char) : Bool := (ciStrip pat l).isSome

/-- Case-insensitive substring containment. -/
def ciHasSub (pat : List Char) : List Char → Bool
  | [] => pat.isEmpty
  | l@(_ :: cs) => ciStarts pat l || ciHasSub pat cs

/-- The lookahead alternatives `(?=~DG|\^XA|\^XZ)`. -/
def isBoundary (l : List Char) : Bool :=
  (ciStrip (s2l "~DG") l).isSome || (ciStrip (s2l "^XA") l).isSome ||
    (ciStrip (s2l "^XZ") l).isSome

/-- Lazy `[\s\S]*?` up to the first position where a boundary token
follows; fails at end of input (the lookahead needs a boundary). -/
def boundarySearch : List Char → Option (List Char × List Char)
  | [] => none
  | c :: cs =>
    if isBoundary (c :: cs) then some ([], c :: cs)
    else
      match boundarySearch cs with
      | some (g, r) => some (c :: g, r)
      | none => none

/-- Leftmost match of `(~DG<name>[\s\S]*?(?=~DG|\^XA|\^XZ))` with the `i`
flag: at each position try the opener plus name, then the shortest gap to
a boundary. -/
def gidGo (name : List Char) : List Char → Option (List Char)
  | [] => none
  | c :: cs =>
    match ciStrip (s2l "~DG" ++ name) (c :: cs) with
    | some (m, rest) =>
      (match boundarySearch rest with
       | some (g, _) => some (m ++ g)
       | none => gidGo name cs)
    | none => gidGo name cs

/-- Image-definition lookup: the first matched block, or `""`. -/
def getImageDefinitionByName (imageDefinitions imageName : List Char) :
    List Char :=
  (gidGo imageName imageDefinitions).getD []

-- ===========================================================================
-- Export cleanup (`cleanZplForDownload`)
-- ===========================================================================

def lastN (n : Nat) (l : List Char) : List Char := l.drop (l.length - n)

/-- `cleaned.replace(/(?<!\^FH)\^FD/g, "^FH^FD")`: the negative lookbehind
inspects the input string, tracked here as the last three consumed input
characters. -/
def fhGo : Nat → List Char → List Char → List Char
  | 0, _, l => l
  | _ + 1, _, [] => []
  | n + 1, prev, c :: cs =>
    match stripTok (s2l "^FD") (c :: cs) with
    | some rest =>
      if prev = s2l "^FH" then s2l "^FD" ++ fhGo n (s2l "^FD") rest
      else s2l "^FH^FD" ++ fhGo n (s2l "^FD") rest
    | none => c :: fhGo n (lastN 3 (prev ++ [c])) cs

def fhPass (l : List Char) : List Char := fhGo l.length [] l

/-- One match of `/\^FD(.*?)\^FS/gs` whose replacement rewrites `_5f` back
to `_` inside the whole matched slice. -/
def fd5fStep (l : List Char) : Option (List Char × List Char) :=
  match stripTok (s2l "^FD") l with
  | none => none
  | some r =>
    match splitAtTok (s2l "^FS") r with
    | none => none
    | some (mid, rest) =>
      some (replaceAllTok (s2l "_5f") (s2l "_")
              (s2l "^FD" ++ mid ++ s2l "^FS"), rest)

/-- JavaScript `\s` (the whitespace characters relevant to this format). -/
def jsWs (c : Char) : Bool :=
  c = ' ' || c = '\t' || c = '\n' || c = '\r' ||
    c = Char.ofNat 0x0B || c = Char.ofNat 0x0C

def wsSpan (l : List Char) : List Char × List Char :=
  (l.takeWhile jsWs, l.dropWhile jsWs)

/-- Lazy `.*?\^FS\s*\^XZ\s*`: successive `^FS` occurrences are tried until
one is followed by whitespace and `^XZ`; returns the rest after the
trailing whitespace. -/
def findFSXZ : Nat → List Char → Option (List Char)
  | 0, _ => none
  | n + 1, l =>
    match splitAtTok (s2l "^FS") l with
    | none => none
    | some (_, b) =>
      match stripTok (s2l "^XZ") (wsSpan b).2 with
      | some b2 => some (wsSpan b2).2
      | none => findFSXZ n b

/-- One match of `/\^XA\s*\^ID.*?\^FS\s*\^XZ\s*/gs`, removed entirely. -/
def idStripStep (l : List Char) : Option (List Char × List Char) :=
  match stripTok (s2l "^XA") l with
  | none => none
  | some r1 =>
  match stripTok (s2l "^ID") (wsSpan r1).2 with
  | none => none
  | some r2 =>
  match findFSXZ r2.length r2 with
  | none => none
  | some rest => some ([], rest)

/-- One match of `/~DG[\s\S]*?\^XA/gs`, replaced by `^XA`. -/
def dgStripStep (l : List Char) : Option (List Char × List Char) :=
  match stripTok (s2l "~DG") l with
  | none => none
  | some r =>
    match splitAtTok (s2l "^XA") r with
    | none => none
    | some (_, rest) => some (s2l "^XA", rest)

/-- One match of `/(\^BE[A-Z],\d+,)N(,[A-Z])/g`, the `N` flag forced to
`Y`. -/
def beStep (l : List Char) : Option (List Char × List Char) :=
  match stripTok (s2l "^BE") l with
  | none => none
  | some r1 =>
  match upperAZ r1 with
  | none => none
  | some (a, r2) =>
  match commaTok r2 with
  | none => none
  | some r3 =>
  match digits1 r3 with
  | none => none
  | some (d, r4) =>
  match commaTok r4 with
  | none => none
  | some r5 =>
  match r5 with
  | 'N' :: r6 =>
    (match commaTok r6 with
     | none => none
     | some r7 =>
       match upperAZ r7 with
       | none => none
       | some (b, rest) =>
         some (s2l "^BE" ++ [a] ++ [','] ++ d ++ [','] ++ ['Y'] ++ [','] ++
               [b], rest))
  | _ => none

/-- One occurrence of `\^(XA|XZ)`, removed (used to strip wrapper markers
from a definition block). -/
def xaXzStep (l : List Char) : Option (List Char × List Char) :=
  match stripTok (s2l "^XA") l with
  | some r => some ([], r)
  | none =>
    match stripTok (s2l "^XZ") l with
    | some r => some ([], r)
    | none => none

/-- `v.type === 'image' && v.isChecked && v.imageName` (truthiness of the
optional name). -/
def isCheckedImage (v : Variable) : Bool :=
  decide (v.type = VarType.image) && v.isChecked &&
    (match v.imageName with
     | some n => decide (n ≠ [])
     | none => false)

/-- `Array.from(new Set(..))`: first occurrences in encounter order. -/
def firstNames (l : List (List Char)) : List (List Char) :=
  l.foldl (fun acc x => if acc.contains x then acc else acc ++ [x]) []

/-- Deduplicate the checked image fields by `imageName`, keeping for each
name the first field carrying it. -/
def uniqueCheckedOf (checked : List Variable) : List Variable :=
  (firstNames (checked.filterMap (fun v => v.imageName))).filterMap
    (fun name => checked.find? (fun v => decide (v.imageName = some name)))

/-- The final insertion: directly between `^XA` and `^PRB^FS` when that
anchor exists, else after the first `^XA` (identity when the document has
no `^XA`).  The JavaScript replacement-template `$` escapes are not
modelled; the inserted definitions contain no dollar signs. -/
def insertDefs (defsToInsert cleaned : List Char) : List Char :=
  if hasSub (s2l "^XA^PRB^FS") cleaned then
    replaceFirstTok (s2l "^XA^PRB^FS")
      (s2l "^XA" ++ defsToInsert ++ s2l "^PRB^FS") cleaned
  else
    replaceFirstTok (s2l "^XA") (s2l "^XA" ++ defsToInsert) cleaned

/-- Export cleanup: hex-marker normalization, underscore-placeholder undo,
identity-block strip, raw definition strip, barcode flag forcing, then
re-embedding of the selected image definitions. -/
def cleanZplForDownload (zpl : List Char) (vars : List Variable)
    (imageDefinitions : List Char) : List Char :=
  let c1 := fhPass zpl
  let c2 := scanAll fd5fStep c1
  let c3 := scanAll idStripStep c2
  let c4 := scanAll dgStripStep c3
  let c5 := scanAll beStep c4
  let checked := vars.filter isCheckedImage
  if checked = [] then c5
  else
    let defsToInsert := (uniqueCheckedOf checked).foldl
      (fun acc v =>
        match v.imageName with
        | none => acc
        | some nm =>
          let d0 := getImageDefinitionByName imageDefinitions nm
          if d0 = [] then acc
          else
            let d1 := replaceFirstTok (s2l "~DG" ++ nm) (s2l "~DG" ++ v.value) d0
            acc ++ scanAll xaXzStep d1 ++ ['\n'])
      ['\n']
    insertDefs defsToInsert c5

-- ===========================================================================
-- Specification predicates for the regeneration theorems
-- ===========================================================================

def isAscii (c : Char) : Bool := c.toNat < 128

/-- Generic check of a per-match condition along the non-overlapping scan
of a global replacement pass. -/
def scanOkF (step : List Char → Option (List Char × List Char))
    (good : List Char → Bool) : Nat → List Char → Bool
  | 0, _ => true
  | _ + 1, [] => true
  | n + 1, c :: cs =>
    match step (c :: cs) with
    | some (_, rest) => good (c :: cs) && scanOkF step good n rest
    | none => scanOkF step good n cs

/-- An image match is emitted verbatim when its captured name either has no
lookup entry, or the entry's current value equals the capture, or the
entry's value is empty. -/
def imgGood (vars : List Variable) (l : List Char) : Bool :=
  match imgParse l with
  | none => true
  | some (cap, _) =>
    match mapGet (imageVarsOf vars) cap with
    | some v => decide (v.value = cap) || decide (v.value = [])
    | none => true

/-- A barcode match is emitted verbatim when the statement already carries
`^FH` and the replacement content reproduces the payload. -/
def bcGood (vars : List Variable) (l : List Char) : Bool :=
  match bcParse l with
  | none => true
  | some m =>
    m.hadFH &&
      (match mapGet (barcodeVarsOf vars) m.fd with
       | some v => decide (convertToCP850 v.value = m.fd)
       | none => true)

/-- A text match is emitted verbatim when it sits at a barcode-claimed
position, or already carries `^FH` in its middle part and the replacement
content reproduces the payload. -/
def txtGood (vars : List Variable) (pos : List (List Char))
    (l : List Char) : Bool :=
  match txtParse l with
  | none => true
  | some m =>
    pos.contains (txtKey m) ||
      (hasSub (s2l "^FH") m.middle &&
        (match mapGet (textVarsOf vars) m.fd with
         | some v => decide (convertToCP850 v.value = m.fd)
         | none => true))

/-- The captured group name has no matching image field at all. -/
def imgMiss (vars : List Variable) (l : List Char) : Bool :=
  match imgParse l with
  | none => true
  | some (cap, _) => (mapGet (imageVarsOf vars) cap).isNone

/-- The barcode payload has no matching barcode field and the statement
already carries `^FH`. -/
def bcMissFH (vars : List Variable) (l : List Char) : Bool :=
  match bcParse l with
  | none => true
  | some m => m.hadFH && (mapGet (barcodeVarsOf vars) m.fd).isNone

/-- The text payload has no matching text field and the statement carries
`^FH` (or sits at a barcode-claimed position). -/
def txtMissFH (vars : List Variable) (pos : List (List Char))
    (l : List Char) : Bool :=
  match txtParse l with
  | none => true
  | some m =>
    pos.contains (txtKey m) ||
      (hasSub (s2l "^FH") m.middle && (mapGet (textVarsOf vars) m.fd).isNone)

/-- Every image-pass match of the document satisfies `imgGood`. -/
def imgMatchesOk (vars : List Variable) (l : List Char) : Bool :=
  scanOkF (imageStep vars) (imgGood vars) l.length l

/-- Every barcode-pass match of the document satisfies `bcGood`. -/
def bcMatchesOk (vars : List Variable) (l : List Char) : Bool :=
  scanOkF (barcodeStep vars) (bcGood vars) l.length l

/-- Every text-pass match of the document satisfies `txtGood`. -/
def txtMatchesOk (vars : List Variable) (pos : List (List Char))
    (l : List Char) : Bool :=
  scanOkF (textStep vars pos) (txtGood vars pos) l.length l

/-- Every image-pass match of the document misses the lookup. -/
def imgAllMiss (vars : List Variable) (l : List Char) : Bool :=
  scanOkF (imageStep vars) (imgMiss vars) l.length l

/-- Every barcode-pass match misses the lookup and carries `^FH`. -/
def bcAllMissFH (vars : List Variable) (l : List Char) : Bool :=
  scanOkF (barcodeStep vars) (bcMissFH vars) l.length l

/-- Every text-pass match misses the lookup and carries `^FH` (or is
barcode-claimed). -/
def txtAllMissFH (vars : List Variable) (pos : List (List Char))
    (l : List Char) : Bool :=
  scanOkF (textStep vars pos) (txtMissFH vars pos) l.length l

-- ===========================================================================
-- Ordering rank, position order, occurrence counting, concrete fixtures
-- ===========================================================================

/-- The fixed type precedence of the concatenated output: barcode, image,
text. -/
def typeRank : VarType → Nat
  | VarType.barcode => 0
  | VarType.image => 1
  | VarType.text => 2

/-- Non-strict (y, x) lexicographic position order. -/
def posLeB (u v : Variable) : Bool :=
  u.y < v.y || (u.y == v.y && u.x ≤ v.x)

/-- Number of positions at which a token occurs. -/
def countStarts (pat : List Char) : List Char → Nat
  | [] => 0
  | l@(_ :: cs) => (if startsTok pat l then 1 else 0) + countStarts pat cs

/-- A text field fixture with payload key `Q`. -/
def tv : Variable :=
  { id := 0, originalValue := s2l "Q", value := s2l "Q", index := 0,
    x := 0, y := 0, type := VarType.text, isChecked := false,
    imageName := none }

/-- An image field fixture: store name `LOGO`, edited value `NEW`, checked
for embedding. -/
def civ : Variable :=
  { id := 0, originalValue := s2l "LOGO", value := s2l "NEW", index := 0,
    x := 0, y := 0, type := VarType.image, isChecked := true,
    imageName := some (s2l "LOGO") }

/-- A second, distinct image field referencing the same store name `LOGO`
but with a different edited value. -/
def civ2 : Variable :=
  { id := 5, originalValue := s2l "LOGO", value := s2l "OTHER", index := 1,
    x := 3, y := 4, type := VarType.image, isChecked := true,
    imageName := some (s2l "LOGO") }

-- ===========================================================================
-- Structural lemmas about the matchers
-- ===========================================================================

theorem stripTok_eq {pat : List Char} :
    ∀ {l r : List Char}, stripTok pat l = some r → l = pat ++ r := by
  induction pat with
  | nil => intro l r h; simp [stripTok] at h; simp [h]
  | cons a p ih =>
    intro l r h
    cases l with
    | nil => simp [stripTok] at h
    | cons b t =>
      by_cases hab : a = b
      · subst hab
        simp only [stripTok, if_pos rfl] at h
        simp [ih h]
      · simp [stripTok, hab] at h

theorem stripTok_self (pat r : List Char) : stripTok pat (pat ++ r) = some r := by
  induction pat with
  | nil => simp [stripTok]
  | cons a p ih => simp [stripTok, ih]

theorem splitAtComma_app :
    ∀ {l a b : List Char}, splitAtComma l = some (a, b) → l = a ++ b := by
  intro l
  induction l with
  | nil => intro a b h; simp [splitAtComma] at h
  | cons c cs ih =>
    intro a b h
    by_cases hc : c = ','
    · simp only [splitAtComma, if_pos hc] at h
      simp at h
      obtain ⟨h1, h2⟩ := h
      subst h1; subst h2; rfl
    · simp only [splitAtComma, if_neg hc] at h
      cases hsc : splitAtComma cs with
      | none => rw [hsc] at h; simp at h
      | some p =>
        obtain ⟨a', b'⟩ := p
        rw [hsc] at h
        simp at h
        obtain ⟨h1, h2⟩ := h
        subst h1; subst h2
        simpa using ih hsc

theorem splitAtTok_app {tok : List Char} :
    ∀ {l a b : List Char}, splitAtTok tok l = some (a, b) →
      l = a ++ tok ++ b := by
  intro l
  induction l with
  | nil => intro a b h; simp [splitAtTok] at h
  | cons c cs ih =>
    intro a b h
    cases hst : stripTok tok (c :: cs) with
    | some rest =>
      simp only [splitAtTok, hst] at h
      simp at h
      obtain ⟨h1, h2⟩ := h
      subst h1; subst h2
      simpa using stripTok_eq hst
    | none =>
      simp only [splitAtTok, hst] at h
      cases hsc : splitAtTok tok cs with
      | none => rw [hsc] at h; simp at h
      | some p =>
        obtain ⟨a', b'⟩ := p
        rw [hsc] at h
        simp at h
        obtain ⟨h1, h2⟩ := h
        subst h1; subst h2
        simpa using ih hsc

theorem digits1_app {l d r : List Char} (h : digits1 l = some (d, r)) :
    l = d ++ r ∧ d ≠ [] := by
  unfold digits1 at h
  cases htw : l.takeWhile Char.isDigit with
  | nil => rw [htw] at h; simp at h
  | cons x xs =>
    rw [htw] at h
    simp at h
    obtain ⟨h1, h2⟩ := h
    subst h1
    subst h2
    refine ⟨?_, by simp⟩
    rw [← htw]
    exact (List.takeWhile_append_dropWhile Char.isDigit l).symm

theorem commaTok_eq : ∀ {l r : List Char}, commaTok l = some r → l = ',' :: r := by
  intro l r h
  cases l with
  | nil => simp [commaTok] at h
  | cons c cs =>
    by_cases hc : c = ','
    · subst hc
      simp [commaTok] at h
      simp [h]
    · simp [commaTok, hc] at h

theorem upperAZ_eq : ∀ {l : List Char} {a : Char} {r : List Char},
    upperAZ l = some (a, r) → l = a :: r := by
  intro l a r h
  cases l with
  | nil => simp [upperAZ] at h
  | cons c cs =>
    simp only [upperAZ] at h
    by_cases hc : 'A' ≤ c ∧ c ≤ 'Z'
    · rw [if_pos hc] at h
      simp at h
      obtain ⟨h1, h2⟩ := h
      subst h1; subst h2; rfl
    · rw [if_neg hc] at h; simp at h

theorem imgParse_eq {l cap rest : List Char} (h : imgParse l = some (cap, rest)) :
    l = s2l "^XG" ++ cap ++ rest := by
  unfold imgParse at h
  cases hst : stripTok (s2l "^XG") l with
  | none => simp only [hst] at h; simp at h
  | some afterXG =>
    simp only [hst] at h
    rw [stripTok_eq hst, splitAtComma_app h]
    simp

theorem bcParse_eq : ∀ {l : List Char} {m : BcMatch}, bcParse l = some m →
    l = bcSlice m ++ m.rest := by
  intro l m h
  unfold bcParse at h
  cases h1 : stripTok (s2l "^FT") l with
  | none => simp only [h1] at h; simp at h
  | some r1 =>
  simp only [h1] at h
  cases h2 : digits1 r1 with
  | none => simp only [h2] at h; simp at h
  | some p2 =>
  obtain ⟨d1, r2⟩ := p2
  simp only [h2] at h
  cases h3 : commaTok r2 with
  | none => simp only [h3] at h; simp at h
  | some r3 =>
  simp only [h3] at h
  cases h4 : digits1 r3 with
  | none => simp only [h4] at h; simp at h
  | some p4 =>
  obtain ⟨d2, r4⟩ := p4
  simp only [h4] at h
  cases h5 : stripTok (s2l "^BE") r4 with
  | none => simp only [h5] at h; simp at h
  | some r5 =>
  simp only [h5] at h
  cases h6 : upperAZ r5 with
  | none => simp only [h6] at h; simp at h
  | some p6 =>
  obtain ⟨a, r6⟩ := p6
  simp only [h6] at h
  cases h7 : commaTok r6 with
  | none => simp only [h7] at h; simp at h
  | some r7 =>
  simp only [h7] at h
  cases h8 : digits1 r7 with
  | none => simp only [h8] at h; simp at h
  | some p8 =>
  obtain ⟨d3, r8⟩ := p8
  simp only [h8] at h
  cases h9 : commaTok r8 with
  | none => simp only [h9] at h; simp at h
  | some r9 =>
  simp only [h9] at h
  cases h10 : upperAZ r9 with
  | none => simp only [h10] at h; simp at h
  | some p10 =>
  obtain ⟨b, r10⟩ := p10
  simp only [h10] at h
  cases h11 : commaTok r10 with
  | none => simp only [h11] at h; simp at h
  | some r11 =>
  simp only [h11] at h
  cases h12 : upperAZ r11 with
  | none => simp only [h12] at h; simp at h
  | some p12 =>
  obtain ⟨cc, r12⟩ := p12
  simp only [h12] at h
  cases h13 : stripTok (s2l "^FH") r12 with
  | some r13 =>
    simp only [h13] at h
    cases h14 : stripTok (s2l "^FD") r13 with
    | none => simp only [h14] at h; simp at h
    | some r14 =>
    simp only [h14] at h
    cases h15 : splitAtTok (s2l "^FS") r14 with
    | none => simp only [h15] at h; simp at h
    | some p15 =>
    obtain ⟨fd, rest⟩ := p15
    simp only [h15] at h
    simp at h
    subst h
    rw [stripTok_eq h1, (digits1_app h2).1, commaTok_eq h3, (digits1_app h4).1,
        stripTok_eq h5, upperAZ_eq h6, commaTok_eq h7, (digits1_app h8).1,
        commaTok_eq h9, upperAZ_eq h10, commaTok_eq h11, upperAZ_eq h12,
        stripTok_eq h13, stripTok_eq h14, splitAtTok_app h15]
    simp [bcSlice, bcPfx]
  | none =>
    simp only [h13] at h
    cases h14 : stripTok (s2l "^FD") r12 with
    | none => simp only [h14] at h; simp at h
    | some r14 =>
    simp only [h14] at h
    cases h15 : splitAtTok (s2l "^FS") r14 with
    | none => simp only [h15] at h; simp at h
    | some p15 =>
    obtain ⟨fd, rest⟩ := p15
    simp only [h15] at h
    simp at h
    subst h
    rw [stripTok_eq h1, (digits1_app h2).1, commaTok_eq h3, (digits1_app h4).1,
        stripTok_eq h5, upperAZ_eq h6, commaTok_eq h7, (digits1_app h8).1,
        commaTok_eq h9, upperAZ_eq h10, commaTok_eq h11, upperAZ_eq h12,
        stripTok_eq h14, splitAtTok_app h15]
    simp [bcSlice, bcPfx]

theorem txtParse_eq : ∀ {l : List Char} {m : TxtMatch}, txtParse l = some m →
    l = txtSlice m ++ m.rest := by
  intro l m h
  unfold txtParse at h
  cases h1 : stripTok (s2l "^FT") l with
  | none => simp only [h1] at h; simp at h
  | some r1 =>
  simp only [h1] at h
  cases h2 : digits1 r1 with
  | none => simp only [h2] at h; simp at h
  | some p2 =>
  obtain ⟨d1, r2⟩ := p2
  simp only [h2] at h
  cases h3 : commaTok r2 with
  | none => simp only [h3] at h; simp at h
  | some r3 =>
  simp only [h3] at h
  cases h4 : digits1 r3 with
  | none => simp only [h4] at h; simp at h
  | some p4 =>
  obtain ⟨d2, r4⟩ := p4
  simp only [h4] at h
  cases h5 : splitAtTok (s2l "^FD") r4 with
  | none => simp only [h5] at h; simp at h
  | some p5 =>
  obtain ⟨middle, r5⟩ := p5
  simp only [h5] at h
  cases h6 : splitAtTok (s2l "^FS") r5 with
  | none => simp only [h6] at h; simp at h
  | some p6 =>
  obtain ⟨fd, rest⟩ := p6
  simp only [h6] at h
  simp at h
  subst h
  rw [stripTok_eq h1, (digits1_app h2).1, commaTok_eq h3, (digits1_app h4).1,
      splitAtTok_app h5, splitAtTok_app h6]
  simp [txtSlice]

theorem ne_nil_append {a b : List Char} (h : a ≠ []) : a ++ b ≠ [] := by
  simp [List.append_eq_nil]
  intro h1 _
  exact h h1

theorem imageStep_sound {vars : List Variable} {l out rest : List Char}
    (hs : imageStep vars l = some (out, rest)) (hg : imgGood vars l = true) :
    l = out ++ rest ∧ out ≠ [] := by
  unfold imageStep at hs
  unfold imgGood at hg
  cases hp : imgParse l with
  | none => simp only [hp] at hs; simp at hs
  | some p =>
    obtain ⟨cap, r⟩ := p
    simp only [hp] at hs hg
    have hl := imgParse_eq hp
    cases hm : mapGet (imageVarsOf vars) cap with
    | none =>
      simp only [hm] at hs
      simp at hs
      obtain ⟨h1, h2⟩ := hs
      subst h1; subst h2
      exact ⟨by simpa using hl, ne_nil_append (by decide)⟩
    | some v =>
      simp only [hm] at hs hg
      by_cases hv : v.value = []
      · rw [if_pos hv] at hs
        simp at hs
        obtain ⟨h1, h2⟩ := hs
        subst h1; subst h2
        exact ⟨by simpa using hl, ne_nil_append (by decide)⟩
      · rw [if_neg hv] at hs
        simp at hs
        obtain ⟨h1, h2⟩ := hs
        subst h1; subst h2
        have hvc : v.value = cap := by
          simp [hv] at hg
          exact hg
        rw [hvc]
        exact ⟨by simpa using hl, ne_nil_append (by decide)⟩

theorem barcodeStep_sound {vars : List Variable} {l out rest : List Char}
    (hs : barcodeStep vars l = some (out, rest)) (hg : bcGood vars l = true) :
    l = out ++ rest ∧ out ≠ [] := by
  unfold barcodeStep at hs
  unfold bcGood at hg
  cases hp : bcParse l with
  | none => simp only [hp] at hs; simp at hs
  | some m =>
    simp only [hp] at hs hg
    have hl := bcParse_eq hp
    simp at hs
    obtain ⟨h1, h2⟩ := hs
    simp [Bool.and_eq_true] at hg
    obtain ⟨hfh, hcontent⟩ := hg
    have hcont :
        (match mapGet (barcodeVarsOf vars) m.fd with
         | some v => convertToCP850 v.value
         | none => m.fd) = m.fd := by
      cases hm : mapGet (barcodeVarsOf vars) m.fd with
      | none => rfl
      | some v =>
        simp only [hm] at hcontent ⊢
        simpa using hcontent
    rw [hcont] at h1
    subst h1; subst h2
    constructor
    · rw [hl]
      simp [bcSlice, hfh, show s2l "^FH^FD" = s2l "^FH" ++ s2l "^FD" from rfl]
    · exact ne_nil_append (by simp [bcPfx])

theorem textStep_sound {vars : List Variable} {pos : List (List Char)}
    {l out rest : List Char}
    (hs : textStep vars pos l = some (out, rest))
    (hg : txtGood vars pos l = true) :
    l = out ++ rest ∧ out ≠ [] := by
  unfold textStep at hs
  unfold txtGood at hg
  cases hp : txtParse l with
  | none => simp only [hp] at hs; simp at hs
  | some m =>
    simp only [hp] at hs hg
    have hl := txtParse_eq hp
    cases hposc : pos.contains (txtKey m) with
    | true =>
      rw [hposc] at hs
      simp at hs
      obtain ⟨h1, h2⟩ := hs
      subst h1; subst h2
      exact ⟨hl, by simp [txtSlice]⟩
    | false =>
      rw [hposc] at hs
      rw [hposc] at hg
      simp [Bool.and_eq_true] at hg
      obtain ⟨hfh, hcontent⟩ := hg
      have hcont :
          (match mapGet (textVarsOf vars) m.fd with
           | some v => convertToCP850 v.value
           | none => m.fd) = m.fd := by
        cases hm : mapGet (textVarsOf vars) m.fd with
        | none => rfl
        | some v =>
          simp only [hm] at hcontent ⊢
          simpa using hcontent
      simp only [hcont, hfh, if_pos] at hs
      simp at hs
      obtain ⟨h1, h2⟩ := hs
      subst h1; subst h2
      refine ⟨by simpa [txtSlice] using hl, ne_nil_append (by decide)⟩

theorem scanF_id {step : List Char → Option (List Char × List Char)}
    {good : List Char → Bool}
    (hstep : ∀ l out rest, step l = some (out, rest) → good l = true →
      l = out ++ rest ∧ out ≠ []) :
    ∀ n (l : List Char), l.length ≤ n → scanOkF step good n l = true →
      scanF step n l = l := by
  intro n
  induction n with
  | zero => intro l _ _; rfl
  | succ n ih =>
    intro l hl hok
    cases l with
    | nil => rfl
    | cons c cs =>
      cases hstep? : step (c :: cs) with
      | none =>
        simp only [scanF, hstep?]
        simp only [scanOkF, hstep?] at hok
        have hcs : cs.length ≤ n := by simp at hl; omega
        rw [ih cs hcs hok]
      | some p =>
        obtain ⟨out, rest⟩ := p
        simp only [scanF, hstep?]
        simp only [scanOkF, hstep?] at hok
        simp [Bool.and_eq_true] at hok
        obtain ⟨hg, hok2⟩ := hok
        obtain ⟨hsplit, hne⟩ := hstep _ _ _ hstep? hg
        have hout : 1 ≤ out.length := by
          cases out with
          | nil => exact absurd rfl hne
          | cons _ _ => simp
        have hrl : rest.length ≤ n := by
          have hlen := congrArg List.length hsplit
          simp [List.length_append] at hlen
          simp at hl
          omega
        rw [ih rest hrl hok2]
        exact hsplit.symm

theorem scanOkF_mono {step : List Char → Option (List Char × List Char)}
    {g1 g2 : List Char → Bool} (himp : ∀ l, g1 l = true → g2 l = true) :
    ∀ n l, scanOkF step g1 n l = true → scanOkF step g2 n l = true := by
  intro n
  induction n with
  | zero => intro l _; rfl
  | succ n ih =>
    intro l h
    cases l with
    | nil => rfl
    | cons c cs =>
      cases hstep? : step (c :: cs) with
      | none =>
        simp only [scanOkF, hstep?] at h ⊢
        exact ih cs h
      | some p =>
        obtain ⟨out, rest⟩ := p
        simp only [scanOkF, hstep?] at h ⊢
        simp [Bool.and_eq_true] at h ⊢
        exact ⟨himp _ h.1, ih rest h.2⟩

theorem scanOkF_of_all {step : List Char → Option (List Char × List Char)}
    {good : List Char → Bool} (hall : ∀ l, good l = true) :
    ∀ n l, scanOkF step good n l = true := by
  intro n
  induction n with
  | zero => intro l; rfl
  | succ n ih =>
    intro l
    cases l with
    | nil => rfl
    | cons c cs =>
      cases hstep? : step (c :: cs) with
      | none => simp only [scanOkF, hstep?]; exact ih cs
      | some p =>
        obtain ⟨out, rest⟩ := p
        simp only [scanOkF, hstep?]
        simp [Bool.and_eq_true]
        exact ⟨hall _, ih rest⟩

theorem imagePass_id {vars : List Variable} {l : List Char}
    (h : imgMatchesOk vars l = true) : scanAll (imageStep vars) l = l :=
  scanF_id (fun _ _ _ hs hg => imageStep_sound hs hg) l.length l le_rfl h

theorem barcodePass_id {vars : List Variable} {l : List Char}
    (h : bcMatchesOk vars l = true) : scanAll (barcodeStep vars) l = l :=
  scanF_id (fun _ _ _ hs hg => barcodeStep_sound hs hg) l.length l le_rfl h

theorem textPass_id {vars : List Variable} {pos : List (List Char)}
    {l : List Char} (h : txtMatchesOk vars pos l = true) :
    scanAll (textStep vars pos) l = l :=
  scanF_id (fun _ _ _ hs hg => textStep_sound hs hg) l.length l le_rfl h

/-- Master identity: when every match of the three passes satisfies its
verbatim-emission condition, regeneration reproduces the document. -/
theorem generate_id {content : List Char} {vars : List Variable}
    (hc : content ≠ []) (hv : vars ≠ [])
    (h1 : imgMatchesOk vars content = true)
    (h2 : bcMatchesOk vars content = true)
    (h3 : txtMatchesOk vars (scanCollectAll collectStep content) content = true) :
    generateZplWithCurrentValues content vars = content := by
  unfold generateZplWithCurrentValues
  rw [if_neg (by simp [hc, hv])]
  have e1 : scanAll (imageStep vars) content = content := imagePass_id h1
  have e2 : scanAll (barcodeStep vars) content = content := barcodePass_id h2
  have e3 : scanAll (textStep vars (scanCollectAll collectStep content))
      content = content := textPass_id h3
  simp only [e1, e2, e3]

theorem imgMiss_good {vars : List Variable} :
    ∀ l, imgMiss vars l = true → imgGood vars l = true := by
  intro l h
  unfold imgMiss at h
  unfold imgGood
  cases hp : imgParse l with
  | none => simp only [hp]
  | some p =>
    obtain ⟨cap, r⟩ := p
    simp only [hp] at h ⊢
    cases hm : mapGet (imageVarsOf vars) cap with
    | none => simp only [hm]
    | some v => simp [hm] at h

theorem bcMiss_good {vars : List Variable} :
    ∀ l, bcMissFH vars l = true → bcGood vars l = true := by
  intro l h
  unfold bcMissFH at h
  unfold bcGood
  cases hp : bcParse l with
  | none => simp only [hp]
  | some m =>
    simp only [hp] at h ⊢
    simp [Bool.and_eq_true] at h ⊢
    obtain ⟨h1, h2⟩ := h
    refine ⟨h1, ?_⟩
    cases hm : mapGet (barcodeVarsOf vars) m.fd with
    | none => simp only [hm]
    | some v => simp [hm] at h2

theorem txtMiss_good {vars : List Variable} {pos : List (List Char)} :
    ∀ l, txtMissFH vars pos l = true → txtGood vars pos l = true := by
  intro l h
  unfold txtMissFH at h
  unfold txtGood
  cases hp : txtParse l with
  | none => simp only [hp]
  | some m =>
    simp only [hp] at h ⊢
    simp [Bool.or_eq_true, Bool.and_eq_true] at h ⊢
    rcases h with h | ⟨h1, h2⟩
    · exact Or.inl h
    · refine Or.inr ⟨h1, ?_⟩
      cases hm : mapGet (textVarsOf vars) m.fd with
      | none => simp only [hm]
      | some v => simp [hm] at h2

theorem getLast?_mem {α : Type} : ∀ {l : List α} {v : α},
    l.getLast? = some v → v ∈ l := by
  intro l
  induction l with
  | nil => intro v h; simp at h
  | cons a t ih =>
    intro v h
    cases t with
    | nil => simp [List.getLast?] at h; simp [h]
    | cons b t2 =>
      rw [List.getLast?_cons_cons] at h
      exact List.mem_cons_of_mem _ (ih h)

theorem mapGet_spec {vs : List Variable} {k : List Char} {v : Variable}
    (h : mapGet vs k = some v) : v ∈ vs ∧ v.originalValue = k := by
  unfold mapGet at h
  have hmem := getLast?_mem h
  have hf := List.mem_filter.1 hmem
  exact ⟨hf.1, of_decide_eq_true hf.2⟩

theorem imgGood_of_values {vars : List Variable}
    (hv : ∀ v ∈ vars, v.value = v.originalValue) :
    ∀ l, imgGood vars l = true := by
  intro l
  unfold imgGood
  cases hp : imgParse l with
  | none => simp only [hp]
  | some p =>
    obtain ⟨cap, r⟩ := p
    simp only [hp]
    cases hm : mapGet (imageVarsOf vars) cap with
    | none => simp only [hm]
    | some v =>
      obtain ⟨hmem, hkey⟩ := mapGet_spec hm
      have hvm : v ∈ vars := (List.mem_filter.1 hmem).1
      simp only [hm]
      simp [hv v hvm, hkey]

-- ===========================================================================
-- Claims C8, C10, C9
-- ===========================================================================

/-- Claim C8: if the stored source document is empty or the field list is
empty, regeneration returns the empty string (a non-fatal "nothing to
generate" result; as a total Lean function it raises nothing for any other
input either). -/
theorem C8_empty_inputs (content : List Char) (vars : List Variable)
    (h : content = [] ∨ vars = []) :
    generateZplWithCurrentValues content vars = [] := by
  unfold generateZplWithCurrentValues
  rw [if_pos h]

theorem C8_witness :
    (([] : List Char) = [] ∨ ([tv] : List Variable) = []) ∧
      generateZplWithCurrentValues [] [tv] = [] :=
  ⟨Or.inl rfl, C8_empty_inputs [] [tv] (Or.inl rfl)⟩

/-- Claim C10: when no image field in the list is checked for embedding,
export cleanup does not depend on the image-definition store argument. -/
theorem C10_store_independence (zpl : List Char) (vars : List Variable)
    (defs1 defs2 : List Char)
    (h : ∀ v ∈ vars, v.type = VarType.image → v.isChecked = false) :
    cleanZplForDownload zpl vars defs1 = cleanZplForDownload zpl vars defs2 := by
  have hf : vars.filter isCheckedImage = [] := by
    rw [List.filter_eq_nil_iff]
    intro v hv
    unfold isCheckedImage
    by_cases ht : v.type = VarType.image
    · simp [ht, h v hv ht]
    · simp [ht]
  simp only [cleanZplForDownload, hf]
  simp

theorem C10_witness :
    (∀ v ∈ [tv], v.type = VarType.image → v.isChecked = false) ∧
      cleanZplForDownload (s2l "^XA^FDA^FS^XZ") [tv] (s2l "~DGL,1,1,FF^XA") =
        cleanZplForDownload (s2l "^XA^FDA^FS^XZ") [tv] (s2l "~DGM,2,2,AA^XA") :=
  ⟨by decide,
   C10_store_independence (s2l "^XA^FDA^FS^XZ") [tv] (s2l "~DGL,1,1,FF^XA")
     (s2l "~DGM,2,2,AA^XA") (by decide)⟩

theorem replaceAllTok_scan_id {tok rep : List Char} :
    ∀ n (l : List Char), hasSub tok l = false →
      scanF (fun s =>
        match stripTok tok s with
        | some rest => some (rep, rest)
        | none => none) n l = l := by
  intro n
  induction n with
  | zero => intro l _; rfl
  | succ n ih =>
    intro l h
    cases l with
    | nil => rfl
    | cons c cs =>
      unfold hasSub at h
      simp at h
      obtain ⟨h1, h2⟩ := h
      have hst : stripTok tok (c :: cs) = none := by
        unfold startsTok at h1
        cases hs : stripTok tok (c :: cs) with
        | none => rfl
        | some r => simp [hs] at h1
      simp only [scanF, hst]
      rw [ih cs h2]

theorem replaceAllTok_id {tok rep l : List Char} (h : hasSub tok l = false) :
    replaceAllTok tok rep l = l :=
  replaceAllTok_scan_id l.length l h

theorem cp850_foldl_id :
    ∀ (L : List (List Char × List Char)) (s : List Char),
      (∀ kv ∈ L, hasSub kv.1 s = false) →
      L.foldl (fun acc kv => replaceAllTok kv.1 kv.2 acc) s = s := by
  intro L
  induction L with
  | nil => intro s _; rfl
  | cons kv t ih =>
    intro s h
    simp only [List.foldl_cons]
    rw [replaceAllTok_id (h kv (by simp))]
    exact ih s (fun kv2 hk => h kv2 (by simp [hk]))

theorem hasSub_mem {pat : List Char} : ∀ {l : List Char},
    hasSub pat l = true → ∀ c ∈ pat, c ∈ l := by
  intro l
  induction l with
  | nil =>
    intro h c hc
    unfold hasSub at h
    rw [List.isEmpty_iff] at h
    subst h
    simp at hc
  | cons a t ih =>
    intro h c hc
    unfold hasSub at h
    simp at h
    cases h with
    | inl h =>
      unfold startsTok at h
      cases hs : stripTok pat (a :: t) with
      | none => simp [hs] at h
      | some r =>
        rw [stripTok_eq hs]
        exact List.mem_append.2 (Or.inl hc)
    | inr h => exact List.mem_cons_of_mem _ (ih h c hc)

/-- Claim C9: the encoding remap is the identity on every string containing
none of the mapped character sequences, and in particular on every
plain-ASCII string. -/
theorem C9_cp850_identity :
    (∀ s : List Char, (∀ kv ∈ cp850Map, hasSub kv.1 s = false) →
       convertToCP850 s = s) ∧
    (∀ s : List Char, (∀ c ∈ s, isAscii c = true) → convertToCP850 s = s) := by
  have hkeys : ∀ kv ∈ cp850Map, kv.1.any (fun c => !(isAscii c)) = true := by
    decide
  constructor
  · intro s h
    unfold convertToCP850
    exact cp850_foldl_id cp850Map s h
  · intro s h
    unfold convertToCP850
    apply cp850_foldl_id
    intro kv hkv
    cases hhs : hasSub kv.1 s with
    | false => rfl
    | true =>
      exfalso
      obtain ⟨c, hc1, hc2⟩ := List.any_eq_true.1 (hkeys kv hkv)
      have hcs : c ∈ s := hasSub_mem hhs c hc1
      have := h c hcs
      simp [this] at hc2

theorem C9_witness :
    (∀ c ∈ s2l "HELLO", isAscii c = true) ∧
      convertToCP850 (s2l "HELLO") = s2l "HELLO" :=
  ⟨by decide, C9_cp850_identity.2 (s2l "HELLO") (by decide)⟩

-- ===========================================================================
-- Claim C1
-- ===========================================================================

/-- Claim C1 (amended): statements whose captured value has no matching
field are emitted with their bytes unchanged, except that the regenerator
normalizes barcode and text statements to carry the `^FH` marker before
`^FD`: documents all of whose matches miss their lookup and already carry
`^FH` (or sit at barcode-claimed positions) regenerate byte-identically,
while representative unmatched barcode and text statements lacking `^FH`
gain exactly that marker. -/
theorem C1_unmatched_statements :
    (∀ content vars, content ≠ [] → vars ≠ [] →
      imgAllMiss vars content = true →
      bcAllMissFH vars content = true →
      txtAllMissFH vars (scanCollectAll collectStep content) content = true →
      generateZplWithCurrentValues content vars = content) ∧
    generateZplWithCurrentValues (s2l "^FT1,1^BEA,2,B,C^FDX^FS") [tv] =
      s2l "^FT1,1^BEA,2,B,C^FH^FDX^FS" ∧
    generateZplWithCurrentValues (s2l "^FT3,4^A0N^FDY^FS") [tv] =
      s2l "^FT3,4^A0N^FH^FDY^FS" := by
  refine ⟨?_, by decide, by decide⟩
  intro content vars hc hv h1 h2 h3
  exact generate_id hc hv
    (scanOkF_mono imgMiss_good content.length content h1)
    (scanOkF_mono bcMiss_good content.length content h2)
    (scanOkF_mono txtMiss_good content.length content h3)

/-- Claim C1 as stated is false: a barcode statement whose payload `X`
matches no field of any type is not emitted unchanged — the regenerator
inserts `^FH`. -/
theorem C1_counterexample :
    mapGet (barcodeVarsOf [tv]) (s2l "X") = none ∧
    mapGet (textVarsOf [tv]) (s2l "X") = none ∧
    mapGet (imageVarsOf [tv]) (s2l "X") = none ∧
    generateZplWithCurrentValues (s2l "^FT1,1^BEA,2,B,C^FDX^FS") [tv] ≠
      s2l "^FT1,1^BEA,2,B,C^FDX^FS" := by decide

theorem C1_witness :
    generateZplWithCurrentValues
      (s2l "^FO10,20^XGLOGO,1,1^FS^FT1,1^BEA,2,B,C^FH^FDX^FS^FT5,6^A0^FH^FDW^FS")
      [tv] =
    s2l "^FO10,20^XGLOGO,1,1^FS^FT1,1^BEA,2,B,C^FH^FDX^FS^FT5,6^A0^FH^FDW^FS" :=
  C1_unmatched_statements.1
    (s2l "^FO10,20^XGLOGO,1,1^FS^FT1,1^BEA,2,B,C^FH^FDX^FS^FT5,6^A0^FH^FDW^FS")
    [tv] (by decide) (by decide) (by decide) (by decide) (by decide)

-- ===========================================================================
-- Extraction plumbing
-- ===========================================================================

theorem imgExtractStep_fields {l : List Char} {v : Variable} {rest : List Char}
    (h : imgExtractStep l = some (v, rest)) :
    v.value = v.originalValue ∧ v.type = VarType.image := by
  unfold imgExtractStep at h
  repeat' split at h
  all_goals simp_all
  all_goals (obtain ⟨h1, _⟩ := h; rw [← h1]; exact ⟨rfl, rfl⟩)

theorem bcExtractStep_fields {l : List Char} {v : Variable} {rest : List Char}
    (h : bcExtractStep l = some (v, rest)) :
    v.value = v.originalValue ∧ v.type = VarType.barcode := by
  unfold bcExtractStep at h
  repeat' split at h
  all_goals simp_all
  all_goals (obtain ⟨h1, _⟩ := h; rw [← h1]; exact ⟨rfl, rfl⟩)

theorem fdExtractStep_fields {l : List Char} {v : Variable} {rest : List Char}
    (h : fdExtractStep l = some (v, rest)) :
    v.value = v.originalValue ∧ v.type = VarType.text := by
  unfold fdExtractStep at h
  repeat' split at h
  all_goals simp_all
  all_goals (obtain ⟨h1, _⟩ := h; rw [← h1]; exact ⟨rfl, rfl⟩)

theorem scanCollectF_forall {κ : Type} {step : List Char → Option (κ × List Char)}
    {P : κ → Prop} (hstep : ∀ l k rest, step l = some (k, rest) → P k) :
    ∀ n l, ∀ k ∈ scanCollectF step n l, P k := by
  intro n
  induction n with
  | zero => intro l k h; simp [scanCollectF] at h
  | succ n ih =>
    intro l k h
    cases l with
    | nil => simp [scanCollectF] at h
    | cons c cs =>
      cases hstep? : step (c :: cs) with
      | none =>
        simp only [scanCollectF, hstep?] at h
        exact ih cs k h
      | some p =>
        obtain ⟨k0, rest⟩ := p
        simp only [scanCollectF, hstep?] at h
        rcases List.mem_cons.1 h with h | h
        · subst h; exact hstep _ _ _ hstep?
        · exact ih rest k h

theorem scanCollectAll_forall {κ : Type}
    {step : List Char → Option (κ × List Char)} {P : κ → Prop}
    (hstep : ∀ l k rest, step l = some (k, rest) → P k) :
    ∀ l, ∀ k ∈ scanCollectAll step l, P k :=
  fun l => scanCollectF_forall hstep l.length l

theorem assignIds_forall {P : Variable → Prop}
    (hP : ∀ u i, P u → P { u with id := i, index := i }) :
    ∀ n L, (∀ u ∈ L, P u) → ∀ v ∈ assignIds n L, P v := by
  intro n L
  induction L generalizing n with
  | nil => intro _ v hv; simp [assignIds] at hv
  | cons a t ih =>
    intro hall v hv
    simp only [assignIds] at hv
    rcases List.mem_cons.1 hv with h | h
    · subst h; exact hP a n (hall a (by simp))
    · exact ih (n + 1) (fun u hu => hall u (by simp [hu])) v h

theorem reindex_forall {P : Variable → Prop}
    (hP : ∀ u i, P u → P { u with index := i }) :
    ∀ n L, (∀ u ∈ L, P u) → ∀ v ∈ reindex n L, P v := by
  intro n L
  induction L generalizing n with
  | nil => intro _ v hv; simp [reindex] at hv
  | cons a t ih =>
    intro hall v hv
    simp only [reindex] at hv
    rcases List.mem_cons.1 hv with h | h
    · subst h; exact hP a n (hall a (by simp))
    · exact ih (n + 1) (fun u hu => hall u (by simp [hu])) v h

theorem insertPos_mem {v w : Variable} : ∀ {L : List Variable},
    w ∈ insertPos v L → w = v ∨ w ∈ L := by
  intro L
  induction L with
  | nil => intro h; simp [insertPos] at h; exact Or.inl h
  | cons a t ih =>
    intro h
    unfold insertPos at h
    by_cases hlt : posLt v a = true
    · rw [if_pos hlt] at h
      rcases List.mem_cons.1 h with h | h
      · exact Or.inl h
      · exact Or.inr h
    · rw [if_neg hlt] at h
      rcases List.mem_cons.1 h with h | h
      · exact Or.inr (by simp [h])
      · rcases ih h with h | h
        · exact Or.inl h
        · exact Or.inr (by simp [h])

theorem sortFold_mem : ∀ (L acc : List Variable) (w : Variable),
    w ∈ List.foldl (fun acc v => insertPos v acc) acc L →
    w ∈ acc ∨ w ∈ L := by
  intro L
  induction L with
  | nil => intro acc w h; exact Or.inl h
  | cons a t ih =>
    intro acc w h
    rcases ih (insertPos a acc) w h with h | h
    · rcases insertPos_mem h with h | h
      · exact Or.inr (by simp [h])
      · exact Or.inl h
    · exact Or.inr (by simp [h])

theorem sortByPosition_mem {L : List Variable} {w : Variable}
    (h : w ∈ sortByPosition L) : w ∈ L := by
  rcases sortFold_mem L [] w h with h | h
  · simp at h
  · exact h

/-- Lift a field-content property (invariant under `id`/`index` updates)
from the three match collections to the extractor's output. -/
theorem extract_forall {content : List Char} (P : Variable → Prop)
    (hP : ∀ (u : Variable) i j, P u → P { u with id := i, index := j })
    (himg : ∀ v ∈ imgFieldsOf content, P v)
    (hbc : ∀ v ∈ bcFieldsOf content, P v)
    (htxt : ∀ v ∈ txtFieldsOf content, P v) :
    ∀ v ∈ extractVariables content, P v := by
  have hraw : ∀ u ∈ rawFieldsOf content, P u := by
    apply assignIds_forall (fun u i h => hP u i i h)
    intro u hu
    rcases List.mem_append.1 hu with hu | hu
    · rcases List.mem_append.1 hu with hu | hu
      · exact himg u hu
      · exact hbc u hu
    · exact htxt u hu
  have hsort : ∀ u ∈
      (sortByPosition ((rawFieldsOf content).filter
          (fun v => v.type = VarType.barcode)) ++
       sortByPosition ((rawFieldsOf content).filter
          (fun v => v.type = VarType.image)) ++
       sortByPosition ((rawFieldsOf content).filter
          (fun v => v.type = VarType.text))), P u := by
    intro u hu
    rcases List.mem_append.1 hu with hu | hu
    · rcases List.mem_append.1 hu with hu | hu
      · exact hraw u (List.mem_filter.1 (sortByPosition_mem hu)).1
      · exact hraw u (List.mem_filter.1 (sortByPosition_mem hu)).1
    · exact hraw u (List.mem_filter.1 (sortByPosition_mem hu)).1
  have hPidx : ∀ (u : Variable) i, P u → P { u with index := i } := by
    intro u i h
    have h2 := hP u u.id i h
    have he : ({ u with id := u.id, index := i } : Variable) =
        { u with index := i } := rfl
    rw [← he]
    exact h2
  exact reindex_forall hPidx 0 _ hsort

theorem extract_values_eq {content : List Char} :
    ∀ v ∈ extractVariables content, v.value = v.originalValue := by
  apply extract_forall
  · intro u i j h; simpa using h
  · exact scanCollectAll_forall
      (fun _ _ _ h => (imgExtractStep_fields h).1) content
  · exact scanCollectAll_forall
      (fun _ _ _ h => (bcExtractStep_fields h).1) content
  · intro v hv
    exact scanCollectAll_forall
      (fun _ _ _ h => (fdExtractStep_fields h).1) content v
      (List.mem_filter.1 hv).1

-- ===========================================================================
-- Claims C2 and C7
-- ===========================================================================

/-- Claim C2 (amended): with every extracted field's currentValue equal to
its originalValue (which extraction guarantees), regeneration reproduces
the normalized source byte for byte provided every barcode-shaped
statement already carries the `^FH` marker and every replaced payload is
invariant under the CP850 remap; statements lacking `^FH` change by
exactly the inserted marker. -/
theorem C2_roundtrip_noedit (content : List Char)
    (hc : content ≠ []) (hv : extractVariables content ≠ [])
    (h2 : bcMatchesOk (extractVariables content) content = true)
    (h3 : txtMatchesOk (extractVariables content)
        (scanCollectAll collectStep content) content = true) :
    generateZplWithCurrentValues content (extractVariables content) =
      content := by
  have h1 : imgMatchesOk (extractVariables content) content = true :=
    scanOkF_of_all (imgGood_of_values extract_values_eq) content.length content
  exact generate_id hc hv h1 h2 h3

/-- Claim C2 as stated is false: on a document whose single recognized
barcode statement lacks `^FH`, regeneration with all current values equal
to the original values does not reproduce the normalized source. -/
theorem C2_counterexample :
    reorderPrnContent (s2l "^FT1,1^BEA,2,B,C^FDX^FS") =
      s2l "^FT1,1^BEA,2,B,C^FDX^FS" ∧
    (∀ v ∈ extractVariables (s2l "^FT1,1^BEA,2,B,C^FDX^FS"),
       v.value = v.originalValue) ∧
    generateZplWithCurrentValues (s2l "^FT1,1^BEA,2,B,C^FDX^FS")
      (extractVariables (s2l "^FT1,1^BEA,2,B,C^FDX^FS")) ≠
      s2l "^FT1,1^BEA,2,B,C^FDX^FS" := by decide

theorem C2_witness :
    generateZplWithCurrentValues
      (s2l "^FO10,20^XGLOGO,1,1^FS^FT1,1^BEA,2,B,C^FH^FDX^FS^FT5,6^A0^FH^FDW^FS")
      (extractVariables
        (s2l "^FO10,20^XGLOGO,1,1^FS^FT1,1^BEA,2,B,C^FH^FDX^FS^FT5,6^A0^FH^FDW^FS")) =
    s2l "^FO10,20^XGLOGO,1,1^FS^FT1,1^BEA,2,B,C^FH^FDX^FS^FT5,6^A0^FH^FDW^FS" :=
  C2_roundtrip_noedit _ (by decide) (by decide) (by decide) (by decide)

/-- Claim C7: extraction never emits a text field at a barcode-claimed
position, and the two-statement scenario yields exactly one barcode and
one text field. -/
theorem C7_barcode_positions_excluded :
    (∀ content, ∀ v ∈ extractVariables content, v.type = VarType.text →
      (barcodePositions content).contains (v.x, v.y) = false) ∧
    (extractVariables
        (s2l "^FT50,50^BEN,100,N,N^FD12345^FS^FT10,10^A0N,30,30^FDHELLO^FS")).map
      (fun v => (v.type, v.originalValue, v.x, v.y)) =
      [(VarType.barcode, s2l "12345", 50, 50),
       (VarType.text, s2l "HELLO", 10, 10)] := by
  refine ⟨?_, by decide⟩
  intro content
  apply extract_forall (P := fun v => v.type = VarType.text →
    (barcodePositions content).contains (v.x, v.y) = false)
  · intro u i j h; simpa using h
  · intro v hv ht
    have hti := (scanCollectAll_forall
      (fun _ _ _ h => (imgExtractStep_fields h).2) content) v hv
    rw [hti] at ht
    exact absurd ht (by decide)
  · intro v hv ht
    have htb := (scanCollectAll_forall
      (fun _ _ _ h => (bcExtractStep_fields h).2) content) v hv
    rw [htb] at ht
    exact absurd ht (by decide)
  · intro v hv _
    have hf := (List.mem_filter.1 hv).2
    simpa using hf

theorem C7_witness :
    ((⟨1, s2l "HELLO", s2l "HELLO", 1, 10, 10, VarType.text, false, none⟩ :
        Variable) ∈
      extractVariables
        (s2l "^FT50,50^BEN,100,N,N^FD12345^FS^FT10,10^A0N,30,30^FDHELLO^FS")) ∧
    (barcodePositions
        (s2l "^FT50,50^BEN,100,N,N^FD12345^FS^FT10,10^A0N,30,30^FDHELLO^FS")).contains
      (10, 10) = false :=
  ⟨by decide,
   C7_barcode_positions_excluded.1
     (s2l "^FT50,50^BEN,100,N,N^FD12345^FS^FT10,10^A0N,30,30^FDHELLO^FS")
     ⟨1, s2l "HELLO", s2l "HELLO", 1, 10, 10, VarType.text, false, none⟩
     (by decide) (by decide)⟩

-- ===========================================================================
-- Claim C3
-- ===========================================================================

theorem otherKeep_high {k : Nat} : ∀ (L : List (List Char)) {i : Nat}, k < i →
    otherKeep k i L = L.filter (fun l => !hasXG l) := by
  intro L
  induction L with
  | nil => intro i _; rfl
  | cons a t ih =>
    intro i hki
    have hdec : decide (i ≤ k) = false := decide_eq_false (by omega)
    cases hx : hasXG a with
    | false =>
      simp only [otherKeep, hdec, hx, Bool.false_or, Bool.not_false, if_true,
        List.filter_cons]
      simp [ih (by omega : k < i + 1)]
    | true =>
      simp only [otherKeep, hdec, hx, Bool.false_or, Bool.not_true, if_false,
        List.filter_cons]
      simp [ih (by omega : k < i + 1)]

theorem otherKeep_eq (k : Nat) : ∀ (L : List (List Char)) (i : Nat), i ≤ k + 1 →
    otherKeep k i L =
      L.take (k + 1 - i) ++ (L.drop (k + 1 - i)).filter (fun l => !hasXG l) := by
  intro L
  induction L with
  | nil => intro i _; simp [otherKeep]
  | cons a t ih =>
    intro i hi
    by_cases hik : i ≤ k
    · have hdec : decide (i ≤ k) = true := decide_eq_true hik
      simp only [otherKeep, hdec, Bool.true_or, if_true]
      rw [ih (i + 1) (by omega)]
      have hk1 : k + 1 - i = (k - i) + 1 := by omega
      have hk2 : k + 1 - (i + 1) = k - i := by omega
      rw [hk1, hk2]
      simp
    · have hik2 : k < i := by omega
      have hzero : k + 1 - i = 0 := by omega
      rw [hzero]
      simp only [List.take_zero, List.drop_zero, List.nil_append]
      exact otherKeep_high _ hik2

/-- Claim C3 (amended): when the marker is absent the normalizer is the
identity; when the marker line is at index k and no line at or before it
contains the group token, the output is exactly the first k+1 lines, then
all group lines after the marker in original order, then the remaining
non-group lines in original order.  (When a group line occurs at or before
the marker the code additionally copies it into the inserted block,
duplicating it, as the counterexample shows.) -/
theorem C3_normalizer :
    (∀ content, (splitNl content).findIdx? hasMNY = none →
      reorderPrnContent content = content) ∧
    (∀ content k, (splitNl content).findIdx? hasMNY = some k →
      (∀ l ∈ (splitNl content).take (k + 1), hasXG l = false) →
      reorderPrnContent content =
        joinNl ((splitNl content).take (k + 1) ++
          ((splitNl content).drop (k + 1)).filter hasXG ++
          ((splitNl content).drop (k + 1)).filter (fun l => !hasXG l))) := by
  constructor
  · intro content h
    unfold reorderPrnContent
    simp only [h]
  · intro content k hk hpre
    obtain ⟨hklen, -, -⟩ := List.findIdx?_eq_some_iff_getElem.mp hk
    unfold reorderPrnContent
    simp only [hk]
    have hko : otherKeep k 0 (splitNl content) =
        (splitNl content).take (k + 1) ++
          ((splitNl content).drop (k + 1)).filter (fun l => !hasXG l) := by
      have := otherKeep_eq k (splitNl content) 0 (by omega)
      simpa using this
    have hfilter : (splitNl content).filter hasXG =
        ((splitNl content).drop (k + 1)).filter hasXG := by
      conv_lhs => rw [← List.take_append_drop (k + 1) (splitNl content)]
      rw [List.filter_append, List.filter_eq_nil_iff.2 (by
        intro l hl
        simp [hpre l hl])]
      simp
    have hlenA : ((splitNl content).take (k + 1)).length = k + 1 := by
      rw [List.length_take]
      omega
    rw [hko, hfilter]
    rw [List.take_left' hlenA, List.drop_left' hlenA]

theorem C3_counterexample :
    (splitNl (s2l "^XGA,\n^MNY")).findIdx? hasMNY = some 1 ∧
    ((splitNl (s2l "^XGA,\n^MNY")).drop 2).filter hasXG = [] ∧
    reorderPrnContent (s2l "^XGA,\n^MNY") ≠ s2l "^XGA,\n^MNY" := by decide

theorem C3_witness :
    reorderPrnContent (s2l "^MNY\nA\n^XGB,\nC") = s2l "^MNY\n^XGB,\nA\nC" := by
  have h := C3_normalizer.2 (s2l "^MNY\nA\n^XGB,\nC") 0 (by decide) (by decide)
  rw [h]
  decide

-- ===========================================================================
-- Claim C4
-- ===========================================================================

theorem ciStrip_replay {pat : List Char} :
    ∀ {l m r : List Char}, ciStrip pat l = some (m, r) →
      ∀ t, ciStrip pat (m ++ t) = some (m, t) := by
  induction pat with
  | nil =>
    intro l m r h t
    simp [ciStrip] at h
    obtain ⟨h1, _⟩ := h
    subst h1
    simp [ciStrip]
  | cons a p ih =>
    intro l m r h t
    cases l with
    | nil => simp [ciStrip] at h
    | cons b u =>
      simp only [ciStrip] at h
      by_cases hab : ciEq a b = true
      · rw [if_pos hab] at h
        cases hc : ciStrip p u with
        | none => rw [hc] at h; simp at h
        | some q =>
          obtain ⟨m2, r2⟩ := q
          rw [hc] at h
          simp at h
          obtain ⟨h1, h2⟩ := h
          subst h1; subst h2
          have hrep := ih hc t
          simp only [List.cons_append, ciStrip, if_pos hab, List.append_eq]
          rw [hrep]
      · rw [if_neg hab] at h; simp at h

theorem gidGo_none {name : List Char} :
    ∀ {defs : List Char}, ciHasSub (s2l "~DG" ++ name) defs = false →
      gidGo name defs = none := by
  intro defs
  induction defs with
  | nil => intro _; rfl
  | cons c cs ih =>
    intro h
    unfold ciHasSub at h
    simp at h
    obtain ⟨h1, h2⟩ := h
    have hcs : ciStrip (s2l "~DG" ++ name) (c :: cs) = none := by
      unfold ciStarts at h1
      cases hx : ciStrip (s2l "~DG" ++ name) (c :: cs) with
      | none => rfl
      | some q => simp [hx] at h1
    unfold gidGo
    rw [hcs]
    exact ih h2

theorem gidGo_starts {name : List Char} :
    ∀ {defs block : List Char}, gidGo name defs = some block →
      ciStarts (s2l "~DG" ++ name) block = true := by
  intro defs
  induction defs with
  | nil => intro block h; simp [gidGo] at h
  | cons c cs ih =>
    intro block h
    unfold gidGo at h
    cases hx : ciStrip (s2l "~DG" ++ name) (c :: cs) with
    | none =>
      simp only [hx] at h
      exact ih h
    | some q =>
      obtain ⟨m, rest⟩ := q
      simp only [hx] at h
      cases hb : boundarySearch rest with
      | none =>
        simp only [hb] at h
        exact ih h
      | some p =>
        obtain ⟨g, r⟩ := p
        simp only [hb] at h
        simp at h
        subst h
        unfold ciStarts
        rw [ciStrip_replay hx g]
        rfl

/-- Claim C4 (amended): lookup performs escaped, case-insensitive PREFIX
matching on the declared name (a stored name extending the queried one also
matches): it returns the empty string when the opener followed by the
queried name never occurs case-insensitively, and every nonempty result
begins with the opener followed by the queried name. -/
theorem C4_lookup :
    (∀ defs name, ciHasSub (s2l "~DG" ++ name) defs = false →
      getImageDefinitionByName defs name = []) ∧
    (∀ defs name, getImageDefinitionByName defs name ≠ [] →
      ciStarts (s2l "~DG" ++ name) (getImageDefinitionByName defs name) =
        true) := by
  constructor
  · intro defs name h
    unfold getImageDefinitionByName
    rw [gidGo_none h]
    rfl
  · intro defs name h
    unfold getImageDefinitionByName at h ⊢
    cases hg : gidGo name defs with
    | none => rw [hg] at h; simp at h
    | some block =>
      simpa using gidGo_starts hg

/-- Claim C4 as stated is false: the store holds a single definition whose
declared name is `AB`; no definition is named exactly `A`, yet looking up
`A` returns the `AB` block rather than the empty string. -/
theorem C4_counterexample :
    getImageDefinitionByName (s2l "~DGAB,1,1,FF^XA") (s2l "A") =
      s2l "~DGAB,1,1,FF" ∧
    getImageDefinitionByName (s2l "~DGAB,1,1,FF^XA") (s2l "A") ≠ [] := by
  decide

theorem C4_witness :
    (ciHasSub (s2l "~DG" ++ s2l "BAR") (s2l "~DGFOO,1,1,AB^XA") = false ∧
      getImageDefinitionByName (s2l "~DGFOO,1,1,AB^XA") (s2l "BAR") = []) ∧
    ciStarts (s2l "~DG" ++ s2l "A")
      (getImageDefinitionByName (s2l "~DGAB,1,1,FF^XA") (s2l "A")) = true :=
  ⟨⟨by decide, C4_lookup.1 (s2l "~DGFOO,1,1,AB^XA") (s2l "BAR") (by decide)⟩,
   C4_lookup.2 (s2l "~DGAB,1,1,FF^XA") (s2l "A") (by decide)⟩

-- ===========================================================================
-- Claim C5
-- ===========================================================================

/-- Claim C5 as stated is false: on a one-label document, the block
inserted by the first cleanup run no longer matches the strip pattern
(no `^XA` follows it) nor the preferred insertion anchor, so a second
cleanup run on the first run's own output inserts a second copy of the
definition block. -/
theorem C5_counterexample :
    countStarts (s2l "~DGNEW")
      (cleanZplForDownload (s2l "^XA^PRB^FS^FDX^FS^XZ") [civ]
        (s2l "~DGLOGO,1,1,FF^XA")) = 1 ∧
    countStarts (s2l "~DGNEW")
      (cleanZplForDownload
        (cleanZplForDownload (s2l "^XA^PRB^FS^FDX^FS^XZ") [civ]
          (s2l "~DGLOGO,1,1,FF^XA")) [civ] (s2l "~DGLOGO,1,1,FF^XA")) = 2 := by
  decide

/-- Claim C5 (amended): with exactly one Image field selected whose
definition exists in the store, cleanup inserts exactly one definition
block, renamed to the field's current value, immediately after the opening
marker; with several selected fields referencing the same store entry,
insertion deduplicates by image name (the first field carrying each name
wins), not by field identity; and a second cleanup run on the output
inserts a second copy of the block. -/
theorem C5_export_embedding :
    (cleanZplForDownload (s2l "^XA^PRB^FS^FDX^FS^XZ") [civ]
        (s2l "~DGLOGO,1,1,FF^XA") =
      s2l "^XA\n~DGNEW,1,1,FF\n^PRB^FS^FH^FDX^FS^XZ" ∧
     countStarts (s2l "~DG")
      (cleanZplForDownload (s2l "^XA^PRB^FS^FDX^FS^XZ") [civ]
        (s2l "~DGLOGO,1,1,FF^XA")) = 1) ∧
    (civ ≠ civ2 ∧
     cleanZplForDownload (s2l "^XA^PRB^FS^FDX^FS^XZ") [civ, civ2]
        (s2l "~DGLOGO,1,1,FF^XA") =
      s2l "^XA\n~DGNEW,1,1,FF\n^PRB^FS^FH^FDX^FS^XZ") ∧
    cleanZplForDownload (s2l "^XA\n~DGNEW,1,1,FF\n^PRB^FS^FH^FDX^FS^XZ") [civ]
        (s2l "~DGLOGO,1,1,FF^XA") =
      s2l "^XA\n~DGNEW,1,1,FF\n\n~DGNEW,1,1,FF\n^PRB^FS^FH^FDX^FS^XZ" := by
  decide

-- ===========================================================================
-- Claim C6
-- ===========================================================================

theorem posLt_iff {u v : Variable} :
    posLt u v = true ↔ u.y < v.y ∨ (u.y = v.y ∧ u.x < v.x) := by
  simp [posLt]

theorem posLeB_iff {u v : Variable} :
    posLeB u v = true ↔ u.y < v.y ∨ (u.y = v.y ∧ u.x ≤ v.x) := by
  simp [posLeB]

theorem stableLe_of_lt_le {u v w : Variable} (h1 : posLt u v = true)
    (h2 : posLeB v w = true) :
    posLeB u w = true ∧ (u.y = w.y → u.x = w.x → u.id < w.id) := by
  rw [posLt_iff] at h1
  rw [posLeB_iff] at h2
  constructor
  · rw [posLeB_iff]
    rcases h1 with h1 | ⟨h1a, h1b⟩ <;> rcases h2 with h2 | ⟨h2a, h2b⟩
    · exact Or.inl (by omega)
    · exact Or.inl (by omega)
    · exact Or.inl (by omega)
    · exact Or.inr ⟨by omega, by omega⟩
  · intro hy hx
    exfalso
    rcases h1 with h1 | ⟨h1a, h1b⟩ <;> rcases h2 with h2 | ⟨h2a, h2b⟩ <;> omega

theorem stableLe_of_lt {u v : Variable} (h : posLt u v = true) :
    posLeB u v = true ∧ (u.y = v.y → u.x = v.x → u.id < v.id) := by
  rw [posLt_iff] at h
  constructor
  · rw [posLeB_iff]
    rcases h with h | ⟨ha, hb⟩
    · exact Or.inl h
    · exact Or.inr ⟨ha, by omega⟩
  · intro hy hx
    exfalso
    rcases h with h | ⟨ha, hb⟩ <;> omega

theorem stableLe_of_not_lt {u v : Variable} (h : ¬ posLt v u = true)
    (hid : u.id < v.id) :
    posLeB u v = true ∧ (u.y = v.y → u.x = v.x → u.id < v.id) := by
  have h2a : ¬ v.y < u.y := fun hc => h (posLt_iff.2 (Or.inl hc))
  have h2b : ¬ (v.y = u.y ∧ v.x < u.x) := fun hc => h (posLt_iff.2 (Or.inr hc))
  constructor
  · rw [posLeB_iff]
    by_cases hy : u.y = v.y
    · have hx : ¬ v.x < u.x := fun hc => h2b ⟨hy.symm, hc⟩
      exact Or.inr ⟨hy, by omega⟩
    · exact Or.inl (by omega)
  · intro _ _
    exact hid

theorem insertPos_pairwise {v : Variable} :
    ∀ {acc : List Variable},
      List.Pairwise (fun u w => posLeB u w = true ∧
        (u.y = w.y → u.x = w.x → u.id < w.id)) acc →
      (∀ w ∈ acc, w.id < v.id) →
      List.Pairwise (fun u w => posLeB u w = true ∧
        (u.y = w.y → u.x = w.x → u.id < w.id)) (insertPos v acc) := by
  intro acc
  induction acc with
  | nil => intro _ _; simp [insertPos]
  | cons w t ih =>
    intro hp hid
    unfold insertPos
    by_cases hlt : posLt v w = true
    · rw [if_pos hlt]
      refine List.Pairwise.cons ?_ hp
      intro z hz
      rcases List.mem_cons.1 hz with hz | hz
      · subst hz
        exact stableLe_of_lt hlt
      · have hwz := (List.pairwise_cons.1 hp).1 z hz
        exact stableLe_of_lt_le hlt hwz.1
    · rw [if_neg hlt]
      obtain ⟨hw, hpt⟩ := List.pairwise_cons.1 hp
      refine List.Pairwise.cons ?_ (ih hpt (fun u hu => hid u (by simp [hu])))
      intro z hz
      rcases insertPos_mem hz with hz | hz
      · subst hz
        exact stableLe_of_not_lt hlt (hid w (by simp))
      · exact hw z hz

theorem sortFold_pairwise :
    ∀ (L acc : List Variable),
      List.Pairwise (fun u w => posLeB u w = true ∧
        (u.y = w.y → u.x = w.x → u.id < w.id)) acc →
      List.Pairwise (fun u v => u.id < v.id) L →
      (∀ w ∈ acc, ∀ u ∈ L, w.id < u.id) →
      List.Pairwise (fun u w => posLeB u w = true ∧
        (u.y = w.y → u.x = w.x → u.id < w.id))
        (List.foldl (fun acc v => insertPos v acc) acc L) := by
  intro L
  induction L with
  | nil => intro acc h _ _; exact h
  | cons a t ih =>
    intro acc hacc hL hcross
    simp only [List.foldl_cons]
    obtain ⟨ha, ht⟩ := List.pairwise_cons.1 hL
    apply ih
    · exact insertPos_pairwise hacc (fun w hw => hcross w hw a (by simp))
    · exact ht
    · intro w hw u hu
      rcases insertPos_mem hw with hw | hw
      · subst hw
        exact ha u hu
      · exact hcross w hw u (by simp [hu])

theorem sortByPosition_pairwise {L : List Variable}
    (h : List.Pairwise (fun u v => u.id < v.id) L) :
    List.Pairwise (fun u w => posLeB u w = true ∧
      (u.y = w.y → u.x = w.x → u.id < w.id)) (sortByPosition L) := by
  unfold sortByPosition
  exact sortFold_pairwise L [] (by simp) h (by simp)

theorem assignIds_id_ge : ∀ (n : Nat) (L : List Variable) (v : Variable),
    v ∈ assignIds n L → n ≤ v.id := by
  intro n L
  induction L generalizing n with
  | nil => intro v h; simp [assignIds] at h
  | cons a t ih =>
    intro v h
    simp only [assignIds] at h
    rcases List.mem_cons.1 h with h | h
    · subst h; simp
    · have := ih (n + 1) v h
      omega

theorem assignIds_pairwise_id : ∀ (n : Nat) (L : List Variable),
    List.Pairwise (fun u v => u.id < v.id) (assignIds n L) := by
  intro n L
  induction L generalizing n with
  | nil => simp [assignIds]
  | cons a t ih =>
    simp only [assignIds]
    refine List.Pairwise.cons ?_ (ih (n + 1))
    intro v hv
    have := assignIds_id_ge (n + 1) t v hv
    simp
    omega

theorem reindex_get : ∀ (L : List Variable) (n i : Nat)
    (h : i < (reindex n L).length),
    ((reindex n L).get ⟨i, h⟩).index = n + i := by
  intro L
  induction L with
  | nil => intro n i h; simp [reindex] at h
  | cons a t ih =>
    intro n i h
    cases i with
    | zero => simp [reindex]
    | succ i =>
      simp only [reindex, List.get_cons_succ]
      rw [ih (n + 1) i]
      omega

theorem reindex_mem : ∀ {n : Nat} {L : List Variable} {v : Variable},
    v ∈ reindex n L → ∃ u ∈ L, ∃ i, v = { u with index := i } := by
  intro n L
  induction L generalizing n with
  | nil => intro v h; simp [reindex] at h
  | cons a t ih =>
    intro v h
    simp only [reindex] at h
    rcases List.mem_cons.1 h with h | h
    · exact ⟨a, by simp, n, h⟩
    · obtain ⟨u, hu, i, hi⟩ := ih h
      exact ⟨u, by simp [hu], i, hi⟩

theorem reindex_pairwise {R : Variable → Variable → Prop}
    (hR : ∀ (u v : Variable) i j, R u v →
      R { u with index := i } { v with index := j }) :
    ∀ (n : Nat) (L : List Variable), List.Pairwise R L →
      List.Pairwise R (reindex n L) := by
  intro n L
  induction L generalizing n with
  | nil => intro _; simp [reindex]
  | cons a t ih =>
    intro hp
    obtain ⟨ha, ht⟩ := List.pairwise_cons.1 hp
    simp only [reindex]
    refine List.Pairwise.cons ?_ (ih (n + 1) ht)
    intro v hv
    obtain ⟨u, hu, i, hi⟩ := reindex_mem hv
    subst hi
    exact hR a u n i (ha u hu)

theorem block_type {content : List Char} {t : VarType} :
    ∀ u ∈ sortByPosition ((rawFieldsOf content).filter
        (fun v => v.type = t)), u.type = t := by
  intro u hu
  exact of_decide_eq_true (List.mem_filter.1 (sortByPosition_mem hu)).2

theorem block_pairwise {content : List Char} {t : VarType} :
    List.Pairwise (fun u w => posLeB u w = true ∧
      (u.y = w.y → u.x = w.x → u.id < w.id))
      (sortByPosition ((rawFieldsOf content).filter
        (fun v => v.type = t))) := by
  apply sortByPosition_pairwise
  unfold rawFieldsOf
  exact List.Pairwise.filter _ (assignIds_pairwise_id 0 _)

theorem within_R {L : List Variable} {t : VarType}
    (htype : ∀ u ∈ L, u.type = t)
    (h : List.Pairwise (fun u w => posLeB u w = true ∧
      (u.y = w.y → u.x = w.x → u.id < w.id)) L) :
    List.Pairwise (fun u v => typeRank u.type ≤ typeRank v.type ∧
      (u.type = v.type → posLeB u v = true) ∧
      (u.type = v.type → u.y = v.y → u.x = v.x → u.id < v.id)) L := by
  apply List.Pairwise.imp_of_mem ?_ h
  intro u v hu hv hs
  obtain ⟨h1, h2⟩ := hs
  exact ⟨by rw [htype u hu, htype v hv], fun _ => h1, fun _ => h2⟩

theorem cross_R {u v : Variable} {t1 t2 : VarType} (hu : u.type = t1)
    (hv : v.type = t2) (hne : t1 ≠ t2) (hrank : typeRank t1 ≤ typeRank t2) :
    typeRank u.type ≤ typeRank v.type ∧
    (u.type = v.type → posLeB u v = true) ∧
    (u.type = v.type → u.y = v.y → u.x = v.x → u.id < v.id) := by
  refine ⟨by rw [hu, hv]; exact hrank, ?_, ?_⟩
  · intro h
    rw [hu, hv] at h
    exact absurd h hne
  · intro h
    rw [hu, hv] at h
    exact absurd h hne

/-- Claim C6: the extracted field list is the barcode block, then the
image block, then the text block, each sorted by (y ascending, x
ascending) with ties kept in discovery order (strictly increasing
discovery ids), and every field's orderIndex equals its position in the
concatenated sequence; hence within each type orderIndex is monotonically
increasing in (y, x) lexicographic order. -/
theorem C6_ordering (content : List Char) :
    (∀ i (h : i < (extractVariables content).length),
      ((extractVariables content).get ⟨i, h⟩).index = i) ∧
    List.Pairwise (fun u v =>
      typeRank u.type ≤ typeRank v.type ∧
      (u.type = v.type → posLeB u v = true) ∧
      (u.type = v.type → u.y = v.y → u.x = v.x → u.id < v.id))
      (extractVariables content) := by
  constructor
  · intro i h
    unfold extractVariables at h ⊢
    have := reindex_get _ 0 i h
    simpa using this
  · unfold extractVariables
    apply reindex_pairwise (fun u v i j h => by simpa using h)
    rw [List.pairwise_append]
    refine ⟨?_, ?_, ?_⟩
    · rw [List.pairwise_append]
      refine ⟨within_R block_type block_pairwise,
              within_R block_type block_pairwise, ?_⟩
      intro u hu v hv
      exact cross_R (block_type u hu) (block_type v hv) (by decide) (by decide)
    · exact within_R block_type block_pairwise
    · intro u hu v hv
      rcases List.mem_append.1 hu with hu | hu
      · exact cross_R (block_type u hu) (block_type v hv) (by decide)
          (by decide)
      · exact cross_R (block_type u hu) (block_type v hv) (by decide)
          (by decide)

theorem C6_witness :
    0 < (extractVariables
      (s2l "^FT50,50^BEN,100,N,N^FD12345^FS^FT10,10^A0N,30,30^FDHELLO^FS")).length ∧
    ((extractVariables
      (s2l "^FT50,50^BEN,100,N,N^FD12345^FS^FT10,10^A0N,30,30^FDHELLO^FS")).get
        ⟨0, by decide⟩).index = 0 :=
  ⟨by decide,
   (C6_ordering
     (s2l "^FT50,50^BEN,100,N,N^FD12345^FS^FT10,10^A0N,30,30^FDHELLO^FS")).1 0
     (by decide)⟩
